import Mathlib

/-!
Verification development for the time-off tracking core (`app.py` and its
support modules).  Python dictionaries are modelled as association lists or
lookup functions, floats as exact rationals, and the mutable module-level
stores (`requests_data.requests`, `request_log.request_log`, the users file,
the status log) as explicit state threaded through each operation.
Display-only fields of records (name, call_sign, sector, handled_by) and the
free-form `details` payload of audit events are omitted: no modelled
behaviour reads them.  Timestamps (`datetime.now()`) are passed in as an
explicit `now : String` parameter.
-/

/-- Python truthiness fallback `float(x or d)` on a number: `0` is falsy. -/
def pyOrQ (x d : ℚ) : ℚ := if x = 0 then d else x

/-- Python truthiness fallback on an optional string: `None` and `""` are falsy. -/
def pyOrS (x : Option String) (d : String) : String :=
  match x with
  | none => d
  | some s => if s = "" then d else s

/-- Floor of a rational, computed on the numerator/denominator (`den > 0`). -/
def floorQ (q : ℚ) : ℤ := Int.fdiv q.num q.den

/-- ASCII whitespace (the whitespace `str.strip()` removes in this data
domain). -/
def isSpaceChar (c : Char) : Bool :=
  c == ' ' || c == '\t' || c == '\n' || c == '\r' || c == '\x0b' || c == '\x0c'

/-- Python `str.strip()`. -/
def pyStrip (s : String) : String :=
  String.mk (((s.data.dropWhile isSpaceChar).reverse.dropWhile isSpaceChar).reverse)

/-- Python `str.lower()` on the ASCII letters (the only case-bearing data
this program compares). -/
def lowerChar (c : Char) : Char :=
  if 'A' ≤ c ∧ c ≤ 'Z' then Char.ofNat (c.toNat + 32) else c

/-- Python `str.lower()`. -/
def pyLower (s : String) : String := String.mk (s.data.map lowerChar)

/-- Split a character list at the '-' separators (the field decomposition
performed by `strptime("%Y-%m-%d")`). -/
def splitDash : List Char → List (List Char)
  | [] => [[]]
  | c :: cs =>
    if c = '-' then [] :: splitDash cs
    else
      match splitDash cs with
      | [] => [[c]]
      | t :: ts => (c :: t) :: ts

/-- Numeric value of a decimal digit string. -/
def digitsVal (l : List Char) : ℕ :=
  l.foldl (fun n c => n * 10 + (c.toNat - 48)) 0

/-- A nonempty all-decimal-digit character list. -/
def allDigits (l : List Char) : Bool :=
  !l.isEmpty && l.all (fun c => decide ('0' ≤ c) && decide (c ≤ '9'))

/-- Python 3 `round(x, 2)`: round to two decimals, ties to even (banker's
rounding), with the float values idealised as exact rationals. -/
def round2 (q : ℚ) : ℚ :=
  let n : ℚ := q * 100
  let f : ℤ := floorQ n
  let r : ℚ := n - (f : ℚ)
  let k : ℤ :=
    if r < 1/2 then f
    else if 1/2 < r then f + 1
    else if f % 2 = 0 then f else f + 1
  (k : ℚ) / 100

/-- Gregorian leap year rule (as in Python's `datetime`). -/
def isLeap (y : ℕ) : Bool := y % 4 = 0 && (y % 100 != 0 || y % 400 = 0)

/-- Length of a month in Python's `datetime` calendar. -/
def daysInMonth (y m : ℕ) : ℕ :=
  if m = 2 then (if isLeap y then 29 else 28)
  else if m = 4 ∨ m = 6 ∨ m = 9 ∨ m = 11 then 30
  else 31

/-- Days preceding month `m` in year `y`. -/
def daysBeforeMonth (y m : ℕ) : ℕ :=
  let base :=
    if m = 1 then 0 else if m = 2 then 31 else if m = 3 then 59
    else if m = 4 then 90 else if m = 5 then 120 else if m = 6 then 151
    else if m = 7 then 181 else if m = 8 then 212 else if m = 9 then 243
    else if m = 10 then 273 else if m = 11 then 304 else 334
  base + (if isLeap y ∧ 2 < m then 1 else 0)

/-- Rata-die day number of a Gregorian date (`0001-01-01` has number 1); date
subtraction `(d2 - d1).days` in `datetime` equals the difference of the
numbers, and date comparison agrees with comparison of the numbers. -/
def rataDie (y m d : ℕ) : ℕ :=
  365 * (y - 1) + (y - 1) / 4 + (y - 1) / 400 + daysBeforeMonth y m + d - (y - 1) / 100

/-- The day field of `strptime("%Y-%m-%d")`: one or two digits, or a single
space-padded nonzero digit — CPython's `%d` pattern
`3[01]|[12]\d|0[1-9]|[1-9]| [1-9]`.  Two-digit values above 31 fail that
pattern; the calendar bound checked below (`daysInMonth ≤ 31`) yields the
same accepted set, so the 31 cap needs no separate test here. -/
def parseDayField (l : List Char) : Option ℕ :=
  if allDigits l && decide (l.length ≤ 2) then some (digitsVal l)
  else
    match l with
    | [c1, c2] =>
      if c1 == ' ' && decide ('1' ≤ c2) && decide (c2 ≤ '9') then
        some (c2.toNat - 48)
      else none
    | _ => none

/-- `datetime.strptime(s, "%Y-%m-%d").date()`: a year of exactly four digits
(CPython's `%Y` pattern `\d\d\d\d`; year 0 then rejected by the `date`
constructor), a dash, a one/two-digit month (`%m` admits no padding), a
dash, and a `%d` day field, validated against the calendar; `none` models
the `ValueError` path. -/
def parseYMD (s : String) : Option (ℕ × ℕ × ℕ) :=
  match splitDash s.data with
  | [ys, ms, ds] =>
    if allDigits ys && decide (ys.length = 4) && allDigits ms && decide (ms.length ≤ 2) then
      match parseDayField ds with
      | some d =>
        let y := digitsVal ys
        let m := digitsVal ms
        if 1 ≤ y ∧ 1 ≤ m ∧ m ≤ 12 ∧ 1 ≤ d ∧ d ≤ daysInMonth y m then
          some (y, m, d)
        else none
      | none => none
    else none
  | _ => none

/-- Day number of a date string, when it parses (`_parse_date` in
`admin_requests` composed with the day-number view of the date object). -/
def dateNum (s : String) : Option ℕ :=
  (parseYMD s).map (fun t => rataDie t.1 t.2.1 t.2.2)

/-- An entry of a profile's `audit` list (`details` payload abstracted). -/
structure AuditEvent where
  ts : String
  action : String
deriving DecidableEq

/-- A person profile (one value of the users dictionary).  Fields that Python
reads with `.get(..., default)` are modelled as always present, with absence
represented by the default. -/
structure UserP where
  vacation_left : ℚ
  sick_left : ℚ
  sick_used_ytd : ℚ
  vacation_used_today : ℚ
  seniority_date : String
  hours_per_day_default : ℚ
  vacation_over_cap_approved : Bool
  vacation_entitlement_days_year : ℕ
  vacation_entitlement_hours_year : ℚ
  vacation_carryover_hours : ℚ
  vacation_min_required_hours : ℕ
  nccpd_supervisor_alert : Bool
  is_active : Bool
  audit : List AuditEvent
deriving DecidableEq

/-- A member of `requests_data.requests` (the pending queue). -/
structure PendingReq where
  user : String
  date : String
  type : String
  hours : ℚ
  note : String
  status : String
  handled_by : String
deriving DecidableEq

/-- An entry of the immutable request log (`request_log.request_log`). -/
structure LogEntry where
  user : String
  date : String
  hours : ℚ
  status : String
  type : String
  note : String
  timestamp : String
deriving DecidableEq

/-- The per-date per-person status overlay (`status_log.json`):
date ↦ person ↦ status. -/
abbrev StatusLog := String → String → Option String

/-- Users dictionary: insertion-ordered mapping person id ↦ profile. -/
abbrev Users := List (String × UserP)

/-- `all_users.get(k)`. -/
def usersGet (us : Users) (k : String) : Option UserP :=
  (us.find? (fun p => p.1 == k)).map (fun p => p.2)

/-- In-place mutation of the profile object stored under key `k`. -/
def usersSet (us : Users) (k : String) (v : UserP) : Users :=
  us.map (fun p => if p.1 = k then (k, v) else p)

/-- `audit_append`: append one event and keep only the last 500. -/
def audit_push (a : List AuditEvent) (e : AuditEvent) : List AuditEvent :=
  let a2 := a ++ [e]
  if 500 < a2.length then a2.drop (a2.length - 500) else a2

/-- `status_log.setdefault(d, {})[u] = s`. -/
def setStat (lg : StatusLog) (d u s : String) : StatusLog :=
  fun d2 u2 => if d2 = d ∧ u2 = u then some s else lg d2 u2

/-- The four durable stores every workflow operation reads and writes. -/
structure Store where
  users : Users
  pending : List PendingReq
  log : List LogEntry
  status : StatusLog

/-- Outcome of `submit_request` (flash + redirect targets, structurally). -/
inductive SubmitResult where
  | invalidInput
  | confirmNeeded (dups : List String)
  | insufficientSick
  | ok
deriving DecidableEq

/-- State threaded through the per-day persistence loop of `submit_request`. -/
structure SubLoop where
  u : UserP
  log : List LogEntry
  status : StatusLog
  pending : List PendingReq

/-- Dates already on file for `username` in the request log or the pending
queue (the duplicate-detection set; falsy dates are skipped). -/
def existingDates (st : Store) (username : String) : List String :=
  ((st.log.filter (fun e => e.user == username && e.date != "")).map (fun e => e.date))
    ++ ((st.pending.filter (fun r => r.user == username && r.date != "")).map (fun r => r.date))

/-- One iteration of the `for d in requested_dates` loop of `submit_request`. -/
def submit_day_step (username reqType : String) (hours : ℚ) (note now : String)
    (acc : SubLoop) (d : String) : SubLoop :=
  let status := if reqType = "vacation" then "pending" else "logged"
  let log2 := acc.log ++
    [{user := username, date := d, hours := hours, status := status
      type := reqType, note := note, timestamp := now}]
  if reqType = "vacation" then
    { acc with
      log := log2
      pending := acc.pending ++
        [{user := username, date := d, type := "vacation", hours := hours
          note := note, status := "pending", handled_by := ""}] }
  else
    { acc with
      log := log2
      u := { acc.u with
             sick_left := acc.u.sick_left - hours
             sick_used_ytd := acc.u.sick_used_ytd + hours }
      status := setStat acc.status d username "Sick" }

/-- `submit_request` from the point where the requested date list has been
built: validation, duplicate detection, the sick balance check, the per-day
persistence loop, and the closing audit append. -/
def submit_request (st : Store) (username reqType : String)
    (requested_dates : List String) (hours : ℚ) (note : String)
    (force : Bool) (now : String) : SubmitResult × Store :=
  match usersGet st.users username with
  | none => (.invalidInput, st)
  | some user =>
    if ¬(reqType = "vacation" ∨ reqType = "sick") then (.invalidInput, st)
    else if ¬(0 < hours ∧ hours ≤ 24) then (.invalidInput, st)
    else if requested_dates.isEmpty then (.invalidInput, st)
    else
      let dups := requested_dates.filter (fun d => (existingDates st username).contains d)
      if ¬force ∧ ¬dups.isEmpty then (.confirmNeeded dups, st)
      else if reqType = "sick" ∧ hours * (requested_dates.length : ℚ) > pyOrQ user.sick_left 0 then
        (.insufficientSick, st)
      else
        let fin := requested_dates.foldl (submit_day_step username reqType hours note now)
          {u := user, log := st.log, status := st.status, pending := st.pending}
        let u3 := {fin.u with audit := audit_push fin.u.audit {ts := now, action := "request_submit"}}
        (.ok, { users := usersSet st.users username u3, pending := fin.pending
                log := fin.log, status := fin.status })

/-- One iteration of the date loop of the supervisor day-status update. -/
def day_status_step (username status_req : String)
    (acc : ℕ × ℕ × StatusLog) (ds : String) : ℕ × ℕ × StatusLog :=
  let current := pyStrip (pyOrS (acc.2.2 ds username) "Available")
  if current = "Vacation" ∨ current = "Sick" then (acc.1, acc.2.1 + 1, acc.2.2)
  else if status_req = "Available" then
    if current ≠ "Available" then (acc.1 + 1, acc.2.1, setStat acc.2.2 ds username "Available")
    else (acc.1, acc.2.1 + 1, acc.2.2)
  else if current = status_req then (acc.1, acc.2.1 + 1, acc.2.2)
  else (acc.1 + 1, acc.2.1, setStat acc.2.2 ds username status_req)

/-- The mutation core of `supervisor_day_status`: walk the date batch and
report `(updated, skipped, new status log)`. -/
def day_status_apply (slog : StatusLog) (username status_req : String)
    (dates : List String) : ℕ × ℕ × StatusLog :=
  dates.foldl (day_status_step username status_req) (0, 0, slog)

/-- Outcome of `handle_request` (the approve/deny decision route). -/
inductive HandleResult where
  | ok
  | noMatch
  | targetMissing
deriving DecidableEq

/-- Outcome of `cancel_request`. -/
inductive CancelResult where
  | ok
  | noMatch
deriving DecidableEq

/-- First element satisfying a predicate together with its index
(`for idx, req in enumerate(list)` with a `break` on the first hit). -/
def findIdxElem (p : α → Bool) : List α → Option (ℕ × α)
  | [] => none
  | x :: xs =>
    if p x then some (0, x)
    else (findIdxElem p xs).map (fun q => (q.1 + 1, q.2))

/-- The match filter of the decision loop in `handle_request`. -/
def handle_match (target date_str : String) (r : PendingReq) : Bool :=
  r.user == target && r.date == date_str && r.type == "vacation"

/-- `handle_request` after the role and squad guards: find the pending
vacation request for (target, date), flip its `status` in place, and if the
target profile exists apply the decision (deduction only on `approve`),
append the log entry and the audit event, and delete the queue entry.
The in-place `status` write happens before the profile lookup, so the
`targetMissing` branch leaves a mutated queue entry behind (HTTP 400 path). -/
def handle_request (users : Users) (pending : List PendingReq) (log : List LogEntry)
    (target date_str action now : String) :
    HandleResult × Users × List PendingReq × List LogEntry :=
  match findIdxElem (handle_match target date_str) pending with
  | none => (.noMatch, users, pending, log)
  | some (i, req) =>
    let newStatus := if action = "approve" then "approved" else "denied"
    let pending1 := pending.set i {req with status := newStatus}
    match usersGet users target with
    | none => (.targetMissing, users, pending1, log)
    | some tu =>
      let hours := req.hours
      let tu1 :=
        if action = "approve" then
          { tu with
            vacation_left := tu.vacation_left - hours
            vacation_used_today := tu.vacation_used_today + hours }
        else tu
      let tu2 := {tu1 with audit := audit_push tu1.audit {ts := now, action := "vacation_decision"}}
      let entry : LogEntry :=
        {user := target, date := date_str, hours := hours, status := newStatus
         type := "vacation", note := "", timestamp := now}
      (.ok, usersSet users target tu2, pending1.eraseIdx i, log ++ [entry])

/-- The match filter of the cancellation loop in `cancel_request`. -/
def cancel_match (username date_str : String) (r : PendingReq) : Bool :=
  r.user == username && pyLower r.type == "vacation"
    && pyLower r.status == "pending" && r.date == date_str

/-- `cancel_request`: locate the caller's own pending vacation request for
`date_str`, delete it from the queue, append the audit event and the
`cancelled` log entry; balances are never touched. -/
def cancel_request (users : Users) (pending : List PendingReq) (log : List LogEntry)
    (username date_str now : String) :
    CancelResult × Users × List PendingReq × List LogEntry :=
  match findIdxElem (cancel_match username date_str) pending with
  | none => (.noMatch, users, pending, log)
  | some (i, req) =>
    let pending1 := pending.eraseIdx i
    let users1 :=
      match usersGet users username with
      | none => users
      | some u => usersSet users username
          {u with audit := audit_push u.audit {ts := now, action := "cancel_request"}}
    let entry : LogEntry :=
      {user := username, date := date_str, hours := pyOrQ req.hours 0, status := "cancelled"
       type := "vacation", note := req.note, timestamp := now}
    (.ok, users1, pending1, log ++ [entry])

/-- Outcome of the admin balance-adjustment routes. -/
inductive AdjustResult where
  | ok
  | invalidInput
  | notFound
deriving DecidableEq

/-- `adjust_vacation`: signed adjustment of `vacation_left`, clamped at zero
and rounded to two decimals; audit via `_audit_append` (no truncation). -/
def adjust_vacation (users : Users) (target0 direction0 : String) (hours : ℚ)
    (now : String) : AdjustResult × Users :=
  let target := pyStrip target0
  let direction := pyLower (pyStrip direction0)
  if target = "" then (.invalidInput, users)
  else if ¬(direction = "add" ∨ direction = "subtract") then (.invalidInput, users)
  else if hours ≤ 0 then (.invalidInput, users)
  else
    match usersGet users target with
    | none => (.notFound, users)
    | some u =>
      let before := pyOrQ u.vacation_left 0
      let delta := if direction = "add" then hours else -hours
      let after := max 0 (before + delta)
      let u1 :=
        { u with
          vacation_left := round2 after
          audit := u.audit ++ [{ts := now, action := "vacation_balance_adjust"}] }
      (.ok, usersSet users target u1)

/-- `adjust_sick`: signed adjustment of `sick_left` (sign from `op`, any
other `op` value meaning subtract), rounded then clamped at zero. -/
def adjust_sick (users : Users) (target0 op0 : String) (delta0 : ℚ)
    (now : String) : AdjustResult × Users :=
  let target := pyStrip target0
  let op := pyLower (pyStrip (pyOrS (some op0) "add"))
  let delta := if delta0 < 0 then -delta0 else delta0
  let signed_delta := if op = "add" then delta else -delta
  match usersGet users target with
  | none => (.notFound, users)
  | some u =>
    let before := pyOrQ u.sick_left 0
    let after0 := round2 (before + signed_delta)
    let after := if after0 < 0 then 0 else after0
    let u1 :=
      { u with
        sick_left := after
        audit := u.audit ++ [{ts := now, action := "adjust_sick"}] }
    (.ok, usersSet users target u1)

/-- `_years_of_service_at`: whole years of service as of the given day. -/
def years_of_service_at (sen : Option (ℕ × ℕ × ℕ)) (ay am ad : ℕ) : ℕ :=
  match sen with
  | none => 0
  | some (sy, sm, sd) =>
    let years : ℤ := (ay : ℤ) - (sy : ℤ)
    let years := if am < sm ∨ (am = sm ∧ ad < sd) then years - 1 else years
    (max years 0).toNat

/-- `nccpd_entitlement_days_for_year`: the seniority step table evaluated at
December 31 of the target year. -/
def nccpd_entitlement_days_for_year (seniority_date_iso : String) (year : ℕ) : ℕ :=
  let yrs := years_of_service_at (parseYMD (pyStrip seniority_date_iso)) year 12 31
  if yrs < 1 then 0
  else if yrs < 5 then 10
  else if yrs < 10 then 15
  else if yrs < 15 then 20
  else if yrs = 15 then 25
  else 25 + (yrs - 15)

/-- `nccpd_apply_carryover_and_min_use`: carryover cap at 560h (unless the
over-cap exception is approved) and the minimum-use requirement. -/
def nccpd_apply_carryover_and_min_use (prior : ℚ) (over_cap_approved : Bool) :
    ℚ × ℕ × Bool :=
  let clamped : ℚ × Bool :=
    if 560 < prior ∧ ¬over_cap_approved then (560, true) else (prior, false)
  let min_required : ℕ := if clamped.1 ≤ 240 then 40 else 80
  (clamped.1, min_required, clamped.2)

/-- `nccpd_accrual_for_user`: compute and apply the annual accrual to one
profile (entitlement from seniority, carryover cap, min-use, new balance,
supervisor flag, audit entry). -/
def nccpd_accrual_for_user (u : UserP) (target_year : ℕ) (now : String) : UserP :=
  let iso := pyStrip u.seniority_date
  let hpd := pyOrQ u.hours_per_day_default 8
  let prior := pyOrQ u.vacation_left 0
  let ent_days := nccpd_entitlement_days_for_year iso target_year
  let ent_hours : ℚ := (ent_days : ℚ) * hpd
  let cmf := nccpd_apply_carryover_and_min_use prior u.vacation_over_cap_approved
  let new_balance := cmf.1 + ent_hours
  { u with
    vacation_entitlement_days_year := ent_days
    vacation_entitlement_hours_year := round2 ent_hours
    vacation_carryover_hours := round2 cmf.1
    vacation_min_required_hours := cmf.2.1
    vacation_left := round2 new_balance
    nccpd_supervisor_alert := cmf.2.2
    audit := u.audit ++ [{ts := now, action := "nccpd_accrual"}] }

/-- Lexicographic strict comparison of character lists by code point:
Python's string `<`. -/
def charListLt : List Char → List Char → Bool
  | [], [] => false
  | [], _ :: _ => true
  | _ :: _, [] => false
  | a :: as, b :: bs => decide (a < b) || (a == b && charListLt as bs)

/-- Python string `<`. -/
def strLtb (a b : String) : Bool := charListLt a.data b.data

/-- An enriched pending entry as built in `admin_requests`: the raw record
plus `_type` (normalised type) and `_dt` (parsed date; `_hours` is the
record's own numeric hours and `_ds` its own date string). -/
structure Row where
  req : PendingReq
  ty : String
  dt : Option ℕ
deriving DecidableEq

/-- `_norm_type`. -/
def norm_type (t : String) : String := pyLower (pyStrip t)

/-- `r.get("status") or "pending"`. -/
def pyStatusD (s : String) : String := if s = "" then "pending" else s

/-- The filter of `admin_requests`: pending vacation entries only. -/
def isKept (r : PendingReq) : Bool :=
  norm_type r.type == "vacation" && pyStatusD r.status == "pending"

/-- Normalise and filter the queue (the `enriched` list). -/
def enrich (pending : List PendingReq) : List Row :=
  (pending.filter isKept).map (fun r => {req := r, ty := norm_type r.type, dt := dateNum r.date})

/-- The fourth sort-key component: the parsed date, with `date.min`
(day number 1) substituted for unparseable dates. -/
def keyDt (r : Row) : ℕ := r.dt.getD 1

/-- The sort key comparison `(user, _type, _hours, _dt or date.min) ≤ …`
(Python tuple comparison, componentwise). -/
def rowLe (a b : Row) : Bool :=
  if strLtb a.req.user b.req.user then true
  else if strLtb b.req.user a.req.user then false
  else if strLtb a.ty b.ty then true
  else if strLtb b.ty a.ty then false
  else if a.req.hours < b.req.hours then true
  else if b.req.hours < a.req.hours then false
  else decide (keyDt a ≤ keyDt b)

/-- `enriched.sort(key=...)`. -/
def sortRows (pending : List PendingReq) : List Row :=
  (enrich pending).mergeSort rowLe

/-- The `igroupby` grouping key `(user, _type, _hours)`. -/
def groupKey (r : Row) : String × String × ℚ := (r.req.user, r.ty, r.req.hours)

/-- `itertools.groupby`: maximal runs of consecutive entries sharing the
grouping key. -/
def chunkBy : List Row → List (List Row)
  | [] => []
  | x :: xs =>
    (x :: xs.takeWhile (fun y => decide (groupKey y = groupKey x)))
      :: chunkBy (xs.dropWhile (fun y => decide (groupKey y = groupKey x)))
termination_by l => l.length
decreasing_by
  simp only [List.length_cons]
  exact Nat.lt_succ_of_le ((List.dropWhile_sublist _).length_le)

/-- Comparison used by `flush_seq`'s inner sort (`key=lambda x: x["_dt"] or date.min`). -/
def byDtLe (a b : Row) : Bool := decide (keyDt a ≤ keyDt b)

/-- `flush_seq`: emit the current run (sorted by date) unless empty. -/
def flushRun (seq : List Row) : List (List Row) :=
  if seq.isEmpty then [] else [seq.mergeSort byDtLe]

/-- The contiguity test `dt and last_dt and (dt - last_dt).days == 1`
with `last_dt` already known truthy. -/
def nextDay (b : ℕ) (dt : Option ℕ) : Bool :=
  match dt with
  | some a => a == b + 1
  | none => false

/-- The row walk of `admin_requests` that splits one `igroupby` bucket into
runs: state is the current run `seq` and `last_dt`.  Note the faithful
quirk: when `last_dt` is `None` (also after a row with an unparseable date)
the current `seq` is overwritten without being flushed. -/
def walk (seq : List Row) (last : Option ℕ) : List Row → List (List Row)
  | [] => flushRun seq
  | r :: rs =>
    match last with
    | none => walk [r] r.dt rs
    | some b =>
      if nextDay b r.dt then walk (seq ++ [r]) r.dt rs
      else flushRun seq ++ walk [r] r.dt rs

/-- All runs emitted for one bucket (`seq = []`, `last_dt = None` initially). -/
def runsOf (bucket : List Row) : List (List Row) := walk [] none bucket

/-- A per-day sub-entry of an emitted aggregate row. -/
structure DayRow where
  date : String
  hours : ℚ
  note : String
  status : String
deriving DecidableEq

/-- One aggregate row of the admin view. -/
structure RangeGroup where
  user : String
  type : String
  hours_per_day : ℚ
  start_date : String
  end_date : String
  days : List DayRow
deriving DecidableEq

/-- ASCII uppercase of one character. -/
def upperChar (c : Char) : Char :=
  if 'a' ≤ c ∧ c ≤ 'z' then Char.ofNat (c.toNat - 32) else c

/-- Python `str.title()` on the single-word type labels this program uses. -/
def pyTitle (s : String) : String :=
  match s.data with
  | [] => s
  | c :: cs => String.mk (upperChar c :: cs.map lowerChar)

/-- The per-day dictionary built inside `flush_seq`. -/
def dayOf (row : Row) : DayRow :=
  {date := row.req.date, hours := row.req.hours, note := row.req.note, status := row.req.status}

/-- The aggregate row built by `flush_seq` for one (already sorted) run. -/
def mkGroup (uname typ : String) (hrs : ℚ) (run : List Row) : RangeGroup :=
  { user := uname, type := pyTitle typ, hours_per_day := hrs
    start_date := (run.head?.map (fun r => r.req.date)).getD ""
    end_date := (run.getLast?.map (fun r => r.req.date)).getD ""
    days := run.map dayOf }

/-- All aggregate rows emitted for one `igroupby` bucket. -/
def chunkGroups (c : List Row) : List RangeGroup :=
  match c with
  | [] => []
  | h :: _ => (runsOf c).map (mkGroup h.req.user h.ty h.req.hours)

/-- The grouped pending view of `admin_requests` (before the squad scoping
applied for supervisors, which only filters whole groups). -/
def admin_requests_groups (pending : List PendingReq) : List RangeGroup :=
  List.flatten ((chunkBy (sortRows pending)).map chunkGroups)

/-- The identifying fields of a pending entry:
(user, date, hours, note, status). -/
def projEntry (r : PendingReq) : String × String × ℚ × String × String :=
  (r.user, r.date, r.hours, r.note, r.status)

/-- Flatten the per-day sub-entries of emitted groups back into entries. -/
def flattenGroups (gs : List RangeGroup) :
    List (String × String × ℚ × String × String) :=
  List.flatten (gs.map (fun g => g.days.map (fun d => (g.user, d.date, d.hours, d.note, d.status))))

/-- The log entry appended for one day of a successful sick submission. -/
def sickLogEntry (username : String) (hours : ℚ) (note now : String) (d : String) : LogEntry :=
  {user := username, date := d, hours := hours, status := "logged"
   type := "sick", note := note, timestamp := now}

/-- Successor relation on parsed dates of per-day sub-entries: the second is
exactly one calendar day after the first. -/
def daySucc (a b : DayRow) : Prop :=
  ∃ n, dateNum a.date = some n ∧ dateNum b.date = some (n + 1)

/-- Successor relation on enriched rows. -/
def rowSucc (a b : Row) : Prop :=
  ∃ n, a.dt = some n ∧ b.dt = some (n + 1)

/-- Two adjacent emitted runs are separated by a genuine gap: the first date
of the second run is not the day after the last date of the first run. -/
def runBoundary (R1 R2 : List Row) : Prop :=
  ∀ x y, R1.getLast? = some x → R2.head? = some y → ¬ rowSucc x y

/-- Every pending vacation entry in the queue carries a parseable date. -/
def allParseable (pending : List PendingReq) : Prop :=
  ∀ r ∈ pending, isKept r = true → (dateNum r.date).isSome = true

/-- A profile with every field at its Python `.get` default (test fixture). -/
def baseUser : UserP :=
  { vacation_left := 0, sick_left := 0, sick_used_ytd := 0, vacation_used_today := 0
    seniority_date := "", hours_per_day_default := 0, vacation_over_cap_approved := false
    vacation_entitlement_days_year := 0, vacation_entitlement_hours_year := 0
    vacation_carryover_hours := 0, vacation_min_required_hours := 0
    nccpd_supervisor_alert := false, is_active := true, audit := [] }

/-- The empty day-status overlay (test fixture). -/
def emptyStatus : StatusLog := fun _ _ => none

/-- A fresh pending vacation request (test fixture). -/
def mkPend (user date : String) (hours : ℚ) : PendingReq :=
  {user := user, date := date, type := "vacation", hours := hours
   note := "", status := "pending", handled_by := ""}

/-- The date is protected for this person: the current day-status (with the
code's truthiness default and strip) is `Vacation` or `Sick`. -/
def protAt (lg : StatusLog) (d username : String) : Prop :=
  pyStrip (pyOrS (lg d username) "Available") = "Vacation"
    ∨ pyStrip (pyOrS (lg d username) "Available") = "Sick"

/-- Test fixture: the store of the concrete sick-submission scenario
(`sick_left = 16`, empty log, queue and overlay). -/
def stSick : Store :=
  { users := [("w", {baseUser with sick_left := 16})], pending := []
    log := [], status := emptyStatus }

/-- Test fixture: the store of the concrete duplicate-vacation scenario
(2025-06-10 already in the event log). -/
def stDup : Store :=
  { users := [("w", baseUser)], pending := []
    log := [{user := "w", date := "2025-06-10", hours := 8, status := "approved"
             type := "vacation", note := "", timestamp := "t0"}]
    status := emptyStatus }

/-- Test fixture: a profile with 2010-01-01 seniority and the 8h/day
default, zero balance. -/
def uAcc : UserP :=
  {baseUser with seniority_date := "2010-01-01", hours_per_day_default := 8}

theorem pyOrQ_zero (x : ℚ) : pyOrQ x 0 = x := by
  unfold pyOrQ
  split
  · simp_all
  · rfl

theorem usersGet_usersSet_self (us : Users) (k : String) (u v : UserP)
    (h : usersGet us k = some u) : usersGet (usersSet us k v) k = some v := by
  induction us with
  | nil => simp [usersGet] at h
  | cons p rest ih =>
    by_cases hk : p.1 = k
    · simp [usersGet, usersSet, hk]
    · simp only [usersGet, usersSet, List.map_cons, List.find?_cons, if_neg hk] at h ⊢
      have hbeq : (p.1 == k) = false := by simpa [beq_iff_eq] using hk
      simp only [hbeq] at h ⊢
      exact ih h

theorem day_status_step_count (username status_req : String)
    (acc : ℕ × ℕ × StatusLog) (ds : String) :
    (day_status_step username status_req acc ds).1
      + (day_status_step username status_req acc ds).2.1 = acc.1 + acc.2.1 + 1 := by
  simp only [day_status_step]
  split_ifs <;> simp <;> omega

theorem day_status_step_prot (username status_req : String)
    (acc : ℕ × ℕ × StatusLog) (ds d : String)
    (hp : protAt acc.2.2 d username) :
    (day_status_step username status_req acc ds).2.2 d username = acc.2.2 d username := by
  have hne : ¬ protAt acc.2.2 ds username →
      ∀ s, setStat acc.2.2 ds username s d username = acc.2.2 d username := by
    intro hnp s
    have hdne : d ≠ ds := by
      intro he
      exact hnp (he ▸ hp)
    simp [setStat, hdne]
  simp only [day_status_step]
  split_ifs with h1 h2 h3 h4
  · rfl
  · exact hne (fun hc => by simp only [protAt] at hc; exact absurd hc h1) _
  · rfl
  · rfl
  · exact hne (fun hc => by simp only [protAt] at hc; exact absurd hc h1) _

theorem protAt_congr (lg1 lg2 : StatusLog) (d username : String)
    (h : lg1 d username = lg2 d username) :
    protAt lg1 d username ↔ protAt lg2 d username := by
  unfold protAt
  rw [h]

theorem day_status_step_prot_skip (username status_req : String)
    (acc : ℕ × ℕ × StatusLog) (ds : String)
    (hp : protAt acc.2.2 ds username) :
    day_status_step username status_req acc ds = (acc.1, acc.2.1 + 1, acc.2.2) := by
  unfold day_status_step
  simp only [protAt] at hp
  rw [if_pos hp]

theorem day_status_loop (username status_req : String) (dates : List String) :
    ∀ (acc : ℕ × ℕ × StatusLog),
      ((dates.foldl (day_status_step username status_req) acc).1
          + (dates.foldl (day_status_step username status_req) acc).2.1
        = acc.1 + acc.2.1 + dates.length)
      ∧ (∀ d, protAt acc.2.2 d username →
          (dates.foldl (day_status_step username status_req) acc).2.2 d username
            = acc.2.2 d username)
      ∧ ((∀ d ∈ dates, protAt acc.2.2 d username) →
          (dates.foldl (day_status_step username status_req) acc).1 = acc.1
          ∧ (dates.foldl (day_status_step username status_req) acc).2.1
              = acc.2.1 + dates.length) := by
  induction dates with
  | nil => intro acc; simp
  | cons ds rest ih =>
    intro acc
    simp only [List.foldl_cons, List.length_cons]
    obtain ⟨ihc, ihp, iha⟩ := ih (day_status_step username status_req acc ds)
    refine ⟨?_, ?_, ?_⟩
    · rw [ihc, day_status_step_count]
      omega
    · intro d hd
      have hstep := day_status_step_prot username status_req acc ds d hd
      have hd2 : protAt (day_status_step username status_req acc ds).2.2 d username :=
        (protAt_congr _ _ _ _ hstep).mpr hd
      rw [ihp d hd2, hstep]
    · intro hall
      have hds : protAt acc.2.2 ds username := hall ds (by simp)
      rw [day_status_step_prot_skip username status_req acc ds hds] at iha ihc ⊢
      have := iha (fun d hd => hall d (by simp [hd]))
      simp only at this ⊢
      omega

/-- C5: in a `set_day_status` batch, every date whose current status for the
target person is Vacation or Sick is left unchanged; each date of the batch
is counted exactly once, so updated + skipped equals the number of dates;
and a batch consisting only of protected dates is counted wholly under
skipped. -/
theorem day_status_protected (slog : StatusLog) (username status_req : String)
    (dates : List String) :
    ((day_status_apply slog username status_req dates).1
        + (day_status_apply slog username status_req dates).2.1 = dates.length)
    ∧ (∀ d ∈ dates, protAt slog d username →
        (day_status_apply slog username status_req dates).2.2 d username
          = slog d username)
    ∧ ((∀ d ∈ dates, protAt slog d username) →
        (day_status_apply slog username status_req dates).1 = 0
        ∧ (day_status_apply slog username status_req dates).2.1 = dates.length) := by
  obtain ⟨hc, hp, ha⟩ := day_status_loop username status_req dates (0, 0, slog)
  refine ⟨by simpa [day_status_apply] using hc, ?_, ?_⟩
  · intro d _ hprot
    exact hp d hprot
  · intro hall
    have := ha hall
    simpa [day_status_apply] using this

theorem day_status_protected_witness :
    ((day_status_apply (setStat emptyStatus "2025-01-01" "w" "Sick") "w" "Training"
        ["2025-01-01", "2025-01-02"]).1
      + (day_status_apply (setStat emptyStatus "2025-01-01" "w" "Sick") "w" "Training"
        ["2025-01-01", "2025-01-02"]).2.1 = 2)
    ∧ (day_status_apply (setStat emptyStatus "2025-01-01" "w" "Sick") "w" "Training"
        ["2025-01-01", "2025-01-02"]).2.2 "2025-01-01" "w"
        = setStat emptyStatus "2025-01-01" "w" "Sick" "2025-01-01" "w" := by
  refine ⟨(day_status_protected _ _ _ _).1, ?_⟩
  exact (day_status_protected (setStat emptyStatus "2025-01-01" "w" "Sick") "w" "Training"
    ["2025-01-01", "2025-01-02"]).2.1 "2025-01-01" (by simp) (Or.inr rfl)

theorem submit_sick_loop (username : String) (hours : ℚ) (note now : String)
    (dates : List String) :
    ∀ (acc : SubLoop),
      ((dates.foldl (submit_day_step username "sick" hours note now) acc).u
          = { acc.u with
              sick_left := acc.u.sick_left - hours * dates.length
              sick_used_ytd := acc.u.sick_used_ytd + hours * dates.length })
      ∧ ((dates.foldl (submit_day_step username "sick" hours note now) acc).log
          = acc.log ++ dates.map (sickLogEntry username hours note now))
      ∧ ((dates.foldl (submit_day_step username "sick" hours note now) acc).pending
          = acc.pending)
      ∧ (∀ d u2, (dates.foldl (submit_day_step username "sick" hours note now) acc).status d u2
          = if d ∈ dates ∧ u2 = username then some "Sick" else acc.status d u2) := by
  induction dates with
  | nil =>
    intro acc
    simp
  | cons d0 rest ih =>
    intro acc
    simp only [List.foldl_cons, List.map_cons, List.length_cons]
    have hstep : submit_day_step username "sick" hours note now acc d0
        = { acc with
            log := acc.log ++ [sickLogEntry username hours note now d0]
            u := { acc.u with
                   sick_left := acc.u.sick_left - hours
                   sick_used_ytd := acc.u.sick_used_ytd + hours }
            status := setStat acc.status d0 username "Sick" } := by
      simp [submit_day_step, sickLogEntry]
    rw [hstep]
    obtain ⟨ihu, ihl, ihp, ihs⟩ := ih _
    refine ⟨?_, ?_, ?_, ?_⟩
    · rw [ihu]
      simp only []
      congr 1 <;> push_cast <;> ring
    · rw [ihl]
      simp
    · rw [ihp]
    · intro d u2
      rw [ihs d u2]
      by_cases hd : d ∈ rest ∧ u2 = username
      · simp [hd, hd.1, hd.2]
      · simp only [if_neg hd, setStat]
        by_cases hd0 : d = d0 ∧ u2 = username
        · simp [hd0, hd0.1, hd0.2]
        · have hnotin : ¬(d ∈ d0 :: rest ∧ u2 = username) := by
            intro hc
            rcases hc with ⟨hmem, hu⟩
            rcases List.mem_cons.mp hmem with h | h
            · exact hd0 ⟨h, hu⟩
            · exact hd ⟨h, hu⟩
          simp only [List.mem_cons] at hnotin
          rw [if_neg hd0]
          simp only [List.mem_cons]
          rw [if_neg hnotin]

theorem sick_submission_core (st : Store) (username : String)
    (user : UserP) (requested_dates : List String) (hours : ℚ) (note : String)
    (force : Bool) (now : String)
    (hu : usersGet st.users username = some user)
    (hh : 0 < hours ∧ hours ≤ 24)
    (hd : requested_dates ≠ [])
    (hnc : force = true
      ∨ requested_dates.filter (fun d => (existingDates st username).contains d) = []) :
    (hours * (requested_dates.length : ℚ) > user.sick_left →
      submit_request st username "sick" requested_dates hours note force now
        = (.insufficientSick, st))
    ∧ (¬(hours * (requested_dates.length : ℚ) > user.sick_left) →
      (submit_request st username "sick" requested_dates hours note force now).1 = .ok
      ∧ (submit_request st username "sick" requested_dates hours note force now).2.pending
          = st.pending
      ∧ (submit_request st username "sick" requested_dates hours note force now).2.log
          = st.log ++ requested_dates.map (sickLogEntry username hours note now)
      ∧ (∀ d ∈ requested_dates,
          (submit_request st username "sick" requested_dates hours note force now).2.status
            d username = some "Sick")
      ∧ usersGet
          (submit_request st username "sick" requested_dates hours note force now).2.users
          username = some
          { user with
            sick_left := user.sick_left - hours * (requested_dates.length : ℚ)
            sick_used_ytd := user.sick_used_ytd + hours * (requested_dates.length : ℚ)
            audit := audit_push user.audit {ts := now, action := "request_submit"} }) := by
  have hguard1 : ¬¬(("sick" : String) = "vacation" ∨ True) := by simp
  have hguard2 : ¬¬(0 < hours ∧ hours ≤ 24) := not_not_intro hh
  have hguard3 : ¬(requested_dates.isEmpty = true) := by
    simpa [List.isEmpty_iff] using hd
  have hguard4 : ¬(¬(force = true)
      ∧ ¬((requested_dates.filter
            (fun d => (existingDates st username).contains d)).isEmpty = true)) := by
    rcases hnc with h | h
    · intro hc
      exact hc.1 h
    · intro hc
      exact hc.2 (by rw [h]; rfl)
  simp only [submit_request, hu]
  rw [if_neg hguard1, if_neg hguard2, if_neg hguard3, if_neg hguard4]
  simp only [pyOrQ_zero]
  obtain ⟨hu2, hl2, hp2, hs2⟩ := submit_sick_loop username hours note now requested_dates
    {u := user, log := st.log, status := st.status, pending := st.pending}
  constructor
  · intro hgt
    rw [if_pos ⟨trivial, hgt⟩]
  · intro hle
    rw [if_neg (fun hc => hle hc.2)]
    refine ⟨rfl, ?_, ?_, ?_, ?_⟩
    · exact hp2
    · exact hl2
    · intro d hdm
      simp only []
      rw [hs2 d username]
      simp [hdm]
    · simp only []
      rw [hu2]
      exact usersGet_usersSet_self st.users username user _ hu

/-- C2: a sick submission over a list of dates at `hours` per day, with
`force` set or no duplicates, fails with the insufficient-balance result and
changes no store when `hours × n` exceeds `sick_left`; otherwise it deducts
exactly `hours × n` from `sick_left`, adds the same to `sick_used_ytd`,
appends one `logged` event per date, sets each date's day-status to `Sick`,
and leaves the pending queue untouched. -/
theorem sick_submission_spec (st : Store) (username : String)
    (user : UserP) (requested_dates : List String) (hours : ℚ) (note : String)
    (force : Bool) (now : String)
    (hu : usersGet st.users username = some user)
    (hh : 0 < hours ∧ hours ≤ 24)
    (hd : requested_dates ≠ [])
    (hnc : force = true
      ∨ requested_dates.filter (fun d => (existingDates st username).contains d) = []) :
    (hours * (requested_dates.length : ℚ) > user.sick_left →
      submit_request st username "sick" requested_dates hours note force now
        = (.insufficientSick, st))
    ∧ (¬(hours * (requested_dates.length : ℚ) > user.sick_left) →
      (submit_request st username "sick" requested_dates hours note force now).1 = .ok
      ∧ (submit_request st username "sick" requested_dates hours note force now).2.pending
          = st.pending
      ∧ (submit_request st username "sick" requested_dates hours note force now).2.log
          = st.log ++ requested_dates.map (sickLogEntry username hours note now)
      ∧ (∀ d ∈ requested_dates,
          (submit_request st username "sick" requested_dates hours note force now).2.status
            d username = some "Sick")
      ∧ usersGet
          (submit_request st username "sick" requested_dates hours note force now).2.users
          username = some
          { user with
            sick_left := user.sick_left - hours * (requested_dates.length : ℚ)
            sick_used_ytd := user.sick_used_ytd + hours * (requested_dates.length : ℚ)
            audit := audit_push user.audit {ts := now, action := "request_submit"} }) :=
  sick_submission_core st username user requested_dates hours note force now hu hh hd hnc

theorem sick_submission_spec_witness :
    (submit_request stSick "w" "sick" ["2025-03-01", "2025-03-02"] 8 "" false "t").1 = .ok
    ∧ (∀ u2, usersGet
        (submit_request stSick "w" "sick" ["2025-03-01", "2025-03-02"] 8 "" false "t").2.users
        "w" = some u2 → u2.sick_left = 0 ∧ u2.sick_used_ytd = 16)
    ∧ (submit_request stSick "w" "sick" ["2025-03-01", "2025-03-02"] 8 "" false "t").2.status
        "2025-03-01" "w" = some "Sick"
    ∧ (submit_request stSick "w" "sick" ["2025-03-01", "2025-03-02"] 8 "" false "t").2.status
        "2025-03-02" "w" = some "Sick" := by
  have hmain := sick_submission_spec stSick "w" {baseUser with sick_left := 16}
    ["2025-03-01", "2025-03-02"] 8 "" false "t" rfl (by constructor <;> decide)
    (by decide) (Or.inr rfl)
  have hle : ¬((8 : ℚ) * ((["2025-03-01", "2025-03-02"] : List String).length : ℚ)
      > ({baseUser with sick_left := 16} : UserP).sick_left) := by
    norm_num
  obtain ⟨hok, hpend, hlog, hstat, husr⟩ := hmain.2 hle
  refine ⟨hok, ?_, ?_, ?_⟩
  · intro u2 hu2
    rw [husr] at hu2
    obtain rfl : u2 = _ := (Option.some_injective _ hu2).symm
    constructor <;> norm_num [baseUser]
  · exact hstat "2025-03-01" (by simp)
  · exact hstat "2025-03-02" (by simp)

/-- C4: a submission without `force` whose requested dates overlap the dates
already on file for that person (event log or pending queue) returns the
confirmation-required result listing exactly the conflicting requested
dates, and leaves every store untouched. -/
theorem duplicate_confirmation (st : Store) (username reqType : String)
    (user : UserP) (requested_dates : List String) (hours : ℚ) (note now : String)
    (hu : usersGet st.users username = some user)
    (ht : reqType = "vacation" ∨ reqType = "sick")
    (hh : 0 < hours ∧ hours ≤ 24)
    (hd : requested_dates ≠ [])
    (hdup : requested_dates.filter (fun d => (existingDates st username).contains d) ≠ []) :
    submit_request st username reqType requested_dates hours note false now
      = (.confirmNeeded (requested_dates.filter
          (fun d => (existingDates st username).contains d)), st) := by
  have hguard1 : ¬¬(reqType = "vacation" ∨ reqType = "sick") := not_not_intro ht
  have hguard2 : ¬¬(0 < hours ∧ hours ≤ 24) := not_not_intro hh
  have hguard3 : ¬(requested_dates.isEmpty = true) := by
    simpa [List.isEmpty_iff] using hd
  have hguard4 : ¬((requested_dates.filter
      (fun d => (existingDates st username).contains d)).isEmpty = true) := by
    simpa [List.isEmpty_iff] using hdup
  simp only [submit_request, hu]
  rw [if_neg hguard1, if_neg hguard2, if_neg hguard3, if_pos (by simpa using hguard4)]

theorem duplicate_confirmation_witness :
    submit_request stDup "w" "vacation" ["2025-06-10"] 8 "" false "t"
      = (.confirmNeeded ["2025-06-10"], stDup)
    ∧ (submit_request stDup "w" "vacation" ["2025-06-10"] 8 "" false "t").2.pending = [] := by
  have h := duplicate_confirmation stDup "w" "vacation" baseUser ["2025-06-10"] 8 "" "t"
    rfl (Or.inl rfl) (by constructor <;> decide) (by decide) (by decide)
  have hfilter : (["2025-06-10"] : List String).filter
      (fun d => (existingDates stDup "w").contains d) = ["2025-06-10"] := by decide
  rw [hfilter] at h
  exact ⟨h, by rw [h]; rfl⟩

theorem eraseIdx_set (l : List α) (i : ℕ) (a : α) :
    (l.set i a).eraseIdx i = l.eraseIdx i := by
  induction l generalizing i with
  | nil => simp
  | cons x xs ih =>
    cases i with
    | zero => simp
    | succ j => simp [List.set_cons_succ, List.eraseIdx_cons_succ, ih]

theorem handle_request_found_props (users : Users) (pending : List PendingReq)
    (log : List LogEntry) (target date_str action now : String)
    (i : ℕ) (req : PendingReq) (tu : UserP)
    (hf : findIdxElem (handle_match target date_str) pending = some (i, req))
    (ht : usersGet users target = some tu) :
    (handle_request users pending log target date_str action now).1 = .ok
    ∧ (handle_request users pending log target date_str action now).2.2.1
        = pending.eraseIdx i
    ∧ (handle_request users pending log target date_str action now).2.2.2
        = log ++ [{user := target, date := date_str, hours := req.hours
                   status := if action = "approve" then "approved" else "denied"
                   type := "vacation", note := "", timestamp := now}]
    ∧ ∀ u2, usersGet (handle_request users pending log target date_str action now).2.1 target
          = some u2 →
        u2.vacation_left
            = (if action = "approve" then tu.vacation_left - req.hours else tu.vacation_left)
        ∧ u2.vacation_used_today
            = (if action = "approve" then tu.vacation_used_today + req.hours
               else tu.vacation_used_today)
        ∧ u2.sick_left = tu.sick_left := by
  simp only [handle_request, hf, ht]
  by_cases ha : action = "approve"
  · simp only [if_pos ha]
    refine ⟨trivial, eraseIdx_set pending i _, trivial, ?_⟩
    intro u2 hu2
    rw [usersGet_usersSet_self users target tu _ ht] at hu2
    obtain rfl : u2 = _ := (Option.some_injective _ hu2).symm
    refine ⟨rfl, rfl, rfl⟩
  · simp only [if_neg ha]
    refine ⟨trivial, eraseIdx_set pending i _, trivial, ?_⟩
    intro u2 hu2
    rw [usersGet_usersSet_self users target tu _ ht] at hu2
    obtain rfl : u2 = _ := (Option.some_injective _ hu2).symm
    refine ⟨rfl, rfl, rfl⟩

theorem cancel_request_found_props (users : Users) (pending : List PendingReq)
    (log : List LogEntry) (username date_str now : String)
    (j : ℕ) (creq : PendingReq)
    (hf : findIdxElem (cancel_match username date_str) pending = some (j, creq)) :
    (cancel_request users pending log username date_str now).1 = .ok
    ∧ (cancel_request users pending log username date_str now).2.2.1
        = pending.eraseIdx j
    ∧ (cancel_request users pending log username date_str now).2.2.2
        = log ++ [{user := username, date := date_str, hours := pyOrQ creq.hours 0
                   status := "cancelled", type := "vacation", note := creq.note
                   timestamp := now}]
    ∧ ∀ u2, usersGet (cancel_request users pending log username date_str now).2.1 username
          = some u2 →
        ∃ u1, usersGet users username = some u1
          ∧ u2.vacation_left = u1.vacation_left ∧ u2.sick_left = u1.sick_left := by
  simp only [cancel_request, hf]
  refine ⟨trivial, trivial, trivial, ?_⟩
  intro u2 hu2
  cases hg : usersGet users username with
  | none =>
    simp only [hg] at hu2
    exact ⟨u2, hu2, rfl, rfl⟩
  | some u1 =>
    simp only [hg] at hu2
    rw [usersGet_usersSet_self users username u1 _ hg] at hu2
    obtain rfl : u2 = _ := (Option.some_injective _ hu2).symm
    exact ⟨u1, rfl, rfl, rfl⟩

/-- C3: for a pending vacation request found for (person, date): approval
changes `vacation_left` by exactly `-hours`, appends an `approved` event and
removes the request; denial changes it by exactly `0`, appends a `denied`
event and removes the request; self-service cancellation changes it by
exactly `0`, appends a `cancelled` event and removes the request. -/
theorem vacation_decision_balance (users : Users) (pending : List PendingReq)
    (log : List LogEntry) (target date_str action now : String)
    (i : ℕ) (req : PendingReq) (tu : UserP)
    (hf : findIdxElem (handle_match target date_str) pending = some (i, req))
    (ht : usersGet users target = some tu) :
    (action = "approve" →
      (handle_request users pending log target date_str action now).1 = .ok
      ∧ (∀ u2, usersGet (handle_request users pending log target date_str action now).2.1
            target = some u2 → u2.vacation_left = tu.vacation_left - req.hours)
      ∧ (handle_request users pending log target date_str action now).2.2.2
          = log ++ [{user := target, date := date_str, hours := req.hours
                     status := "approved", type := "vacation", note := "", timestamp := now}]
      ∧ (handle_request users pending log target date_str action now).2.2.1
          = pending.eraseIdx i)
    ∧ (action ≠ "approve" →
      (handle_request users pending log target date_str action now).1 = .ok
      ∧ (∀ u2, usersGet (handle_request users pending log target date_str action now).2.1
            target = some u2 → u2.vacation_left = tu.vacation_left)
      ∧ (handle_request users pending log target date_str action now).2.2.2
          = log ++ [{user := target, date := date_str, hours := req.hours
                     status := "denied", type := "vacation", note := "", timestamp := now}]
      ∧ (handle_request users pending log target date_str action now).2.2.1
          = pending.eraseIdx i)
    ∧ (∀ j creq, findIdxElem (cancel_match target date_str) pending = some (j, creq) →
      (cancel_request users pending log target date_str now).1 = .ok
      ∧ (∀ u2, usersGet (cancel_request users pending log target date_str now).2.1
            target = some u2 → u2.vacation_left = tu.vacation_left)
      ∧ (cancel_request users pending log target date_str now).2.2.2
          = log ++ [{user := target, date := date_str, hours := pyOrQ creq.hours 0
                     status := "cancelled", type := "vacation", note := creq.note
                     timestamp := now}]
      ∧ (cancel_request users pending log target date_str now).2.2.1
          = pending.eraseIdx j) := by
  obtain ⟨hok, herase, hlog, hbal⟩ :=
    handle_request_found_props users pending log target date_str action now i req tu hf ht
  refine ⟨?_, ?_, ?_⟩
  · intro ha
    refine ⟨hok, ?_, ?_, herase⟩
    · intro u2 hu2
      have := (hbal u2 hu2).1
      rwa [if_pos ha] at this
    · rw [hlog, if_pos ha]
  · intro ha
    refine ⟨hok, ?_, ?_, herase⟩
    · intro u2 hu2
      have := (hbal u2 hu2).1
      rwa [if_neg ha] at this
    · rw [hlog, if_neg ha]
  · intro j creq hcf
    obtain ⟨cok, cerase, clog, cbal⟩ :=
      cancel_request_found_props users pending log target date_str now j creq hcf
    refine ⟨cok, ?_, clog, cerase⟩
    intro u2 hu2
    obtain ⟨u1, hu1, hvl, _⟩ := cbal u2 hu2
    rw [hu1] at ht
    obtain rfl : u1 = tu := Option.some_injective _ ht
    exact hvl

theorem vacation_decision_balance_witness :
    ((handle_request [("bob", {baseUser with vacation_left := 40})]
        [mkPend "bob" "2025-01-01" 8] [] "bob" "2025-01-01" "approve" "t").1 = .ok)
    ∧ (∀ u2, usersGet (handle_request [("bob", {baseUser with vacation_left := 40})]
        [mkPend "bob" "2025-01-01" 8] [] "bob" "2025-01-01" "approve" "t").2.1
          "bob" = some u2 → u2.vacation_left = 40 - 8)
    ∧ ((handle_request [("bob", {baseUser with vacation_left := 40})]
        [mkPend "bob" "2025-01-01" 8] [] "bob" "2025-01-01" "approve" "t").2.2.1 = [])
    ∧ (∀ u2, usersGet (cancel_request [("bob", {baseUser with vacation_left := 40})]
        [mkPend "bob" "2025-01-01" 8] [] "bob" "2025-01-01" "t").2.1
          "bob" = some u2 → u2.vacation_left = 40) := by
  have h := vacation_decision_balance [("bob", {baseUser with vacation_left := 40})]
    [mkPend "bob" "2025-01-01" 8] [] "bob" "2025-01-01" "approve" "t"
    0 (mkPend "bob" "2025-01-01" 8) {baseUser with vacation_left := 40} (by decide) rfl
  obtain ⟨happ, _, hcan⟩ := h
  obtain ⟨hok, hbal, _, herase⟩ := happ rfl
  obtain ⟨_, cbal, _, _⟩ := hcan 0 (mkPend "bob" "2025-01-01" 8) (by decide)
  refine ⟨hok, ?_, by rw [herase]; rfl, ?_⟩
  · intro u2 hu2
    have := hbal u2 hu2
    simpa [mkPend] using this
  · intro u2 hu2
    exact cbal u2 hu2

/-- C10: any decision value other than exactly `approve` (deny, misspelling,
empty string, anything) takes the denial path: the whole operation is
identical to an explicit `deny`, and on a found request it removes the entry,
appends a `denied` event and leaves every balance field unchanged. -/
theorem unknown_action_deny (users : Users) (pending : List PendingReq)
    (log : List LogEntry) (target date_str action now : String)
    (hne : action ≠ "approve") :
    handle_request users pending log target date_str action now
      = handle_request users pending log target date_str "deny" now
    ∧ (∀ i req tu, findIdxElem (handle_match target date_str) pending = some (i, req) →
        usersGet users target = some tu →
        (handle_request users pending log target date_str action now).1 = .ok
        ∧ (handle_request users pending log target date_str action now).2.2.1
            = pending.eraseIdx i
        ∧ (handle_request users pending log target date_str action now).2.2.2
            = log ++ [{user := target, date := date_str, hours := req.hours
                       status := "denied", type := "vacation", note := "", timestamp := now}]
        ∧ (∀ u2, usersGet (handle_request users pending log target date_str action now).2.1
              target = some u2 →
            u2.vacation_left = tu.vacation_left ∧ u2.sick_left = tu.sick_left)) := by
  have hdeny : ("deny" : String) ≠ "approve" := by decide
  constructor
  · simp only [handle_request, if_neg hne, if_neg hdeny]
  · intro i req tu hf ht
    obtain ⟨hok, herase, hlog, hbal⟩ :=
      handle_request_found_props users pending log target date_str action now i req tu hf ht
    refine ⟨hok, herase, ?_, ?_⟩
    · rw [hlog, if_neg hne]
    · intro u2 hu2
      obtain ⟨h1, _, h3⟩ := hbal u2 hu2
      rw [if_neg hne] at h1
      exact ⟨h1, h3⟩

theorem unknown_action_deny_witness :
    handle_request [("bob", baseUser)] [mkPend "bob" "2025-01-01" 8] []
        "bob" "2025-01-01" "approveee" "t"
      = handle_request [("bob", baseUser)] [mkPend "bob" "2025-01-01" 8] []
        "bob" "2025-01-01" "deny" "t"
    ∧ (handle_request [("bob", baseUser)] [mkPend "bob" "2025-01-01" 8] []
        "bob" "2025-01-01" "approveee" "t").2.2.1 = [] := by
  have h := unknown_action_deny [("bob", baseUser)] [mkPend "bob" "2025-01-01" 8] []
    "bob" "2025-01-01" "approveee" "t" (by decide)
  obtain ⟨heq, hprops⟩ := h
  obtain ⟨_, herase, _, _⟩ := hprops 0 (mkPend "bob" "2025-01-01" 8) baseUser (by decide) rfl
  exact ⟨heq, by rw [herase]; rfl⟩

theorem atomicity_claim_counterexample :
    (handle_request [] [mkPend "ghost" "2025-01-01" 8] []
        "ghost" "2025-01-01" "approve" "t").1 = .targetMissing
    ∧ (handle_request [] [mkPend "ghost" "2025-01-01" 8] []
        "ghost" "2025-01-01" "approve" "t").2.2.1
        ≠ [mkPend "ghost" "2025-01-01" 8] := by
  constructor
  · rfl
  · decide

/-- C8 (amended): `decide_request` with no matching pending request, and
`cancel_request` with no matching pending request, mutate nothing at all;
but `decide_request` that finds a matching request whose target profile is
absent flips that entry's `status` to approved/denied in place (leaving it
in the queue) before failing — profiles and event log stay untouched, the
queue does not. -/
theorem rejection_atomicity_amended (users : Users) (pending : List PendingReq)
    (log : List LogEntry) (target date_str action now : String) :
    (findIdxElem (handle_match target date_str) pending = none →
      handle_request users pending log target date_str action now
        = (.noMatch, users, pending, log))
    ∧ (findIdxElem (cancel_match target date_str) pending = none →
      cancel_request users pending log target date_str now
        = (.noMatch, users, pending, log))
    ∧ (∀ i req, findIdxElem (handle_match target date_str) pending = some (i, req) →
        usersGet users target = none →
        handle_request users pending log target date_str action now
          = (.targetMissing, users,
             pending.set i {req with status :=
               if action = "approve" then "approved" else "denied"}, log)) := by
  refine ⟨?_, ?_, ?_⟩
  · intro hf
    simp only [handle_request, hf]
  · intro hf
    simp only [cancel_request, hf]
  · intro i req hf hg
    simp only [handle_request, hf, hg]

theorem rejection_atomicity_amended_witness :
    (handle_request [("bob", baseUser)] [] [] "bob" "2025-01-01" "approve" "t"
      = (.noMatch, [("bob", baseUser)], [], []))
    ∧ (cancel_request [("bob", baseUser)] [] [] "bob" "2025-01-01" "t"
      = (.noMatch, [("bob", baseUser)], [], []))
    ∧ (handle_request [] [mkPend "ghost" "2025-01-01" 8] []
        "ghost" "2025-01-01" "approve" "t"
      = (.targetMissing, [],
         [{mkPend "ghost" "2025-01-01" 8 with status := "approved"}], [])) := by
  obtain ⟨h1, h2, h3⟩ := rejection_atomicity_amended [("bob", baseUser)] [] [] "bob"
    "2025-01-01" "approve" "t"
  obtain ⟨_, _, h6⟩ := rejection_atomicity_amended [] [mkPend "ghost" "2025-01-01" 8] []
    "ghost" "2025-01-01" "approve" "t"
  refine ⟨h1 rfl, h2 rfl, ?_⟩
  have := h6 0 (mkPend "ghost" "2025-01-01" 8) (by decide) rfl
  rw [this]
  rfl

theorem clamp_nonneg (x : ℚ) : 0 ≤ if x < 0 then 0 else x := by
  split_ifs with h
  · exact le_refl 0
  · exact not_lt.mp h

theorem floorQ_nonneg (q : ℚ) (h : 0 ≤ q) : 0 ≤ floorQ q := by
  unfold floorQ
  exact Int.fdiv_nonneg (Rat.num_nonneg.mpr h) (by positivity)

theorem round2_nonneg (q : ℚ) (h : 0 ≤ q) : 0 ≤ round2 q := by
  unfold round2
  have hf : 0 ≤ floorQ (q * 100) := floorQ_nonneg _ (by positivity)
  have hk : (0:ℤ) ≤ (if q * 100 - (floorQ (q * 100) : ℚ) < 1/2 then floorQ (q * 100)
      else if 1/2 < q * 100 - (floorQ (q * 100) : ℚ) then floorQ (q * 100) + 1
      else if floorQ (q * 100) % 2 = 0 then floorQ (q * 100) else floorQ (q * 100) + 1) := by
    split_ifs <;> omega
  have : (0:ℚ) ≤ ((if q * 100 - (floorQ (q * 100) : ℚ) < 1/2 then floorQ (q * 100)
      else if 1/2 < q * 100 - (floorQ (q * 100) : ℚ) then floorQ (q * 100) + 1
      else if floorQ (q * 100) % 2 = 0 then floorQ (q * 100) else floorQ (q * 100) + 1 : ℤ) : ℚ) := by
    exact_mod_cast hk
  exact div_nonneg this (by norm_num)

theorem balance_clamp_counterexample :
    (handle_request [("bob", {baseUser with vacation_left := 4})]
        [mkPend "bob" "2025-01-01" 8] [] "bob" "2025-01-01" "approve" "t").1 = .ok
    ∧ Option.map UserP.vacation_left
        (usersGet (handle_request [("bob", {baseUser with vacation_left := 4})]
          [mkPend "bob" "2025-01-01" 8] [] "bob" "2025-01-01" "approve" "t").2.1 "bob")
        = some (4 - 8)
    ∧ ((4 : ℚ) - 8 < 0) := by
  refine ⟨rfl, rfl, by norm_num⟩

/-- C1 (amended): the admin vacation adjustment and the admin sick adjustment
clamp at zero, and a successful sick submission starting from a non-negative
`sick_left` leaves it non-negative (it is balance-checked up front); vacation
approval, by contrast, deducts without clamping and can drive
`vacation_left` negative. -/
theorem balances_nonneg_amended :
    (∀ (users : Users) (target direction : String) (hours : ℚ) (now : String) (u2 : UserP),
      (adjust_vacation users target direction hours now).1 = .ok →
      usersGet (adjust_vacation users target direction hours now).2 (pyStrip target) = some u2 →
      0 ≤ u2.vacation_left)
    ∧ (∀ (users : Users) (target op : String) (delta : ℚ) (now : String) (u2 : UserP),
      (adjust_sick users target op delta now).1 = .ok →
      usersGet (adjust_sick users target op delta now).2 (pyStrip target) = some u2 →
      0 ≤ u2.sick_left)
    ∧ (∀ (st : Store) (username : String) (user : UserP) (dates : List String)
        (hours : ℚ) (note : String) (force : Bool) (now : String) (u2 : UserP),
      usersGet st.users username = some user →
      0 ≤ user.sick_left →
      (0 < hours ∧ hours ≤ 24) →
      dates ≠ [] →
      (force = true ∨ dates.filter (fun d => (existingDates st username).contains d) = []) →
      ¬(hours * (dates.length : ℚ) > user.sick_left) →
      usersGet (submit_request st username "sick" dates hours note force now).2.users username
        = some u2 →
      0 ≤ u2.sick_left) := by
  refine ⟨?_, ?_, ?_⟩
  · intro users target direction hours now u2 hok hget
    simp only [adjust_vacation] at hok hget
    split_ifs at hok hget with h1 h2 h3
    all_goals
      cases hu : usersGet users (pyStrip target) with
      | none => simp only [hu] at hok; exact absurd hok (by simp)
      | some u =>
        simp only [hu] at hok hget
        rw [usersGet_usersSet_self users (pyStrip target) u _ hu] at hget
        obtain rfl : u2 = _ := (Option.some_injective _ hget).symm
        exact round2_nonneg _ (le_max_left 0 _)
  · intro users target op delta now u2 hok hget
    simp only [adjust_sick] at hok hget
    cases hu : usersGet users (pyStrip target) with
    | none => simp only [hu] at hok; simp at hok
    | some u =>
      simp only [hu] at hok hget
      rw [usersGet_usersSet_self users (pyStrip target) u _ hu] at hget
      obtain rfl : u2 = _ := (Option.some_injective _ hget).symm
      exact clamp_nonneg _
  · intro st username user dates hours note force now u2 hu hpos hh hd hnc hle hget
    have hmain := sick_submission_core st username user dates hours note force now hu hh hd hnc
    obtain ⟨_, _, _, _, husr⟩ := hmain.2 hle
    rw [husr] at hget
    obtain rfl : u2 = _ := (Option.some_injective _ hget).symm
    have hmul : hours * (dates.length : ℚ) ≤ user.sick_left := not_lt.mp hle
    simp only []
    linarith

theorem balances_nonneg_amended_witness :
    (adjust_vacation [("bob", baseUser)] "bob" "subtract" 5 "t").1 = .ok
    ∧ 0 ≤ round2 (0 ⊔ (pyOrQ baseUser.vacation_left 0 + -5))
    ∧ (adjust_sick [("bob", baseUser)] "bob" "subtract" 3 "t").1 = .ok
    ∧ 0 ≤ (if round2 (pyOrQ baseUser.sick_left 0 + -3) < 0 then (0:ℚ)
           else round2 (pyOrQ baseUser.sick_left 0 + -3))
    ∧ 0 ≤ (16 : ℚ) - 8 * ((["2025-03-01", "2025-03-02"] : List String).length : ℚ) := by
  refine ⟨rfl, ?_, rfl, ?_, ?_⟩
  · exact balances_nonneg_amended.1 [("bob", baseUser)] "bob" "subtract" 5 "t" _ rfl rfl
  · exact balances_nonneg_amended.2.1 [("bob", baseUser)] "bob" "subtract" 3 "t" _ rfl rfl
  · have hcore := sick_submission_core stSick "w" {baseUser with sick_left := 16}
      ["2025-03-01", "2025-03-02"] 8 "" false "t" rfl (by constructor <;> decide)
      (by decide) (Or.inr rfl)
    obtain ⟨_, _, _, _, husr⟩ := hcore.2 (by norm_num)
    have hres := balances_nonneg_amended.2.2 stSick "w" {baseUser with sick_left := 16}
      ["2025-03-01", "2025-03-02"] 8 "" false "t" _ rfl (by norm_num)
      (by constructor <;> decide) (by decide) (Or.inr rfl) (by norm_num) husr
    exact hres

theorem floorQ_eq_floor (q : ℚ) : floorQ q = ⌊q⌋ := by
  unfold floorQ
  rw [Int.fdiv_eq_ediv _ (by positivity)]
  exact Rat.floor_def.symm

theorem round2_intCast (z : ℤ) : round2 ((z : ℚ)) = z := by
  simp only [round2]
  rw [floorQ_eq_floor]
  have h1 : ((z:ℚ) * 100) = ((z * 100 : ℤ) : ℚ) := by push_cast; ring
  rw [h1, Int.floor_intCast]
  rw [if_pos (by norm_num : ((z*100 : ℤ):ℚ) - ((z*100 : ℤ):ℚ) < 1/2)]
  push_cast
  ring

theorem round2_gt (x : ℚ) : x - 1/100 < round2 x := by
  simp only [round2]
  rw [floorQ_eq_floor]
  have hfl : x * 100 < (⌊x * 100⌋ : ℚ) + 1 := Int.lt_floor_add_one _
  have hk : (⌊x * 100⌋ : ℚ)
      ≤ ((if x * 100 - (⌊x * 100⌋ : ℚ) < 1/2 then ⌊x * 100⌋
          else if 1/2 < x * 100 - (⌊x * 100⌋ : ℚ) then ⌊x * 100⌋ + 1
          else if ⌊x * 100⌋ % 2 = 0 then ⌊x * 100⌋ else ⌊x * 100⌋ + 1 : ℤ) : ℚ) := by
    have : (⌊x * 100⌋ : ℤ)
        ≤ (if x * 100 - (⌊x * 100⌋ : ℚ) < 1/2 then ⌊x * 100⌋
          else if 1/2 < x * 100 - (⌊x * 100⌋ : ℚ) then ⌊x * 100⌋ + 1
          else if ⌊x * 100⌋ % 2 = 0 then ⌊x * 100⌋ else ⌊x * 100⌋ + 1) := by
      split_ifs <;> omega
    exact_mod_cast this
  linarith

/-- C7 (amended): a re-run of the accrual recomputes the same entitlement
days and hours, but applies the entitlement again on top of the first run's
balance: the second run's `vacation_left` equals
`round2(carryover-clamp(first vacation_left) + entitlement hours)`; in
particular, whenever the first balance is within the 560h cap (or the
over-cap exception is approved) and the entitlement is at least one hour,
the second run strictly increases `vacation_left` — the run is not
idempotent. -/
theorem accrual_rerun_amended (u : UserP) (year : ℕ) (t1 t2 : String) :
    (nccpd_accrual_for_user (nccpd_accrual_for_user u year t1) year t2).vacation_entitlement_days_year
      = (nccpd_accrual_for_user u year t1).vacation_entitlement_days_year
    ∧ (nccpd_accrual_for_user (nccpd_accrual_for_user u year t1) year t2).vacation_entitlement_hours_year
      = (nccpd_accrual_for_user u year t1).vacation_entitlement_hours_year
    ∧ (nccpd_accrual_for_user (nccpd_accrual_for_user u year t1) year t2).vacation_left
      = round2 ((nccpd_apply_carryover_and_min_use
          (pyOrQ (nccpd_accrual_for_user u year t1).vacation_left 0)
          u.vacation_over_cap_approved).1
        + (nccpd_entitlement_days_for_year (pyStrip u.seniority_date) year : ℚ)
          * pyOrQ u.hours_per_day_default 8)
    ∧ (((nccpd_accrual_for_user u year t1).vacation_left ≤ 560
          ∨ u.vacation_over_cap_approved = true) →
        1 ≤ (nccpd_entitlement_days_for_year (pyStrip u.seniority_date) year : ℚ)
            * pyOrQ u.hours_per_day_default 8 →
        (nccpd_accrual_for_user u year t1).vacation_left
          < (nccpd_accrual_for_user (nccpd_accrual_for_user u year t1) year t2).vacation_left) := by
  refine ⟨rfl, rfl, rfl, ?_⟩
  intro hcap hent
  have hnotclamp : ¬(560 < pyOrQ (nccpd_accrual_for_user u year t1).vacation_left 0
      ∧ ¬(nccpd_accrual_for_user u year t1).vacation_over_cap_approved = true) := by
    rw [pyOrQ_zero]
    rcases hcap with h | h
    · intro hc
      exact absurd h (not_le.mpr hc.1)
    · intro hc
      exact hc.2 h
  have heq : (nccpd_accrual_for_user (nccpd_accrual_for_user u year t1) year t2).vacation_left
      = round2 (pyOrQ (nccpd_accrual_for_user u year t1).vacation_left 0
        + (nccpd_entitlement_days_for_year (pyStrip u.seniority_date) year : ℚ)
          * pyOrQ u.hours_per_day_default 8) := by
    show round2 ((nccpd_apply_carryover_and_min_use
        (pyOrQ (nccpd_accrual_for_user u year t1).vacation_left 0)
        (nccpd_accrual_for_user u year t1).vacation_over_cap_approved).1
      + (nccpd_entitlement_days_for_year (pyStrip (nccpd_accrual_for_user u year t1).seniority_date) year : ℚ)
        * pyOrQ (nccpd_accrual_for_user u year t1).hours_per_day_default 8) = _
    simp only [nccpd_apply_carryover_and_min_use, if_neg hnotclamp]
    rfl
  rw [heq, pyOrQ_zero]
  have hb := round2_gt ((nccpd_accrual_for_user u year t1).vacation_left
    + (nccpd_entitlement_days_for_year (pyStrip u.seniority_date) year : ℚ)
      * pyOrQ u.hours_per_day_default 8)
  linarith

theorem accrual_days_2010 : nccpd_entitlement_days_for_year (pyStrip "2010-01-01") 2025 = 25 := by
  decide

theorem accrual_uAcc_once : (nccpd_accrual_for_user uAcc 2025 "t1").vacation_left = 200 := by
  have h200 : round2 ((200 : ℚ)) = 200 := by
    have he : (200:ℚ) = ((200:ℤ):ℚ) := by norm_num
    rw [he, round2_intCast]
  show round2 ((nccpd_apply_carryover_and_min_use (pyOrQ 0 0) false).1
    + (nccpd_entitlement_days_for_year (pyStrip "2010-01-01") 2025 : ℚ) * pyOrQ 8 8) = 200
  rw [accrual_days_2010]
  have he : ((nccpd_apply_carryover_and_min_use (pyOrQ 0 0) false).1
      + ((25:ℕ) : ℚ) * pyOrQ 8 8) = 200 := by
    norm_num [nccpd_apply_carryover_and_min_use, pyOrQ]
  rw [he, h200]

theorem accrual_idempotent_counterexample :
    (nccpd_accrual_for_user uAcc 2025 "t1").vacation_left = 200
    ∧ (nccpd_accrual_for_user (nccpd_accrual_for_user uAcc 2025 "t1") 2025 "t2").vacation_left
        = 400
    ∧ ¬((200 : ℚ) = 400) := by
  have h400 : round2 ((400 : ℚ)) = 400 := by
    have he : (400:ℚ) = ((400:ℤ):ℚ) := by norm_num
    rw [he, round2_intCast]
  refine ⟨accrual_uAcc_once, ?_, by norm_num⟩
  show round2 ((nccpd_apply_carryover_and_min_use
      (pyOrQ (nccpd_accrual_for_user uAcc 2025 "t1").vacation_left 0) false).1
    + (nccpd_entitlement_days_for_year (pyStrip "2010-01-01") 2025 : ℚ) * pyOrQ 8 8) = 400
  rw [accrual_uAcc_once, accrual_days_2010]
  have he : ((nccpd_apply_carryover_and_min_use (pyOrQ 200 0) false).1
      + ((25:ℕ) : ℚ) * pyOrQ 8 8) = 400 := by
    norm_num [nccpd_apply_carryover_and_min_use, pyOrQ]
  rw [he, h400]

theorem accrual_rerun_amended_witness :
    (nccpd_accrual_for_user uAcc 2025 "t1").vacation_left ≤ 560
    ∧ 1 ≤ (nccpd_entitlement_days_for_year (pyStrip uAcc.seniority_date) 2025 : ℚ)
        * pyOrQ uAcc.hours_per_day_default 8
    ∧ (nccpd_accrual_for_user uAcc 2025 "t1").vacation_left
        < (nccpd_accrual_for_user (nccpd_accrual_for_user uAcc 2025 "t1") 2025 "t2").vacation_left := by
  have hle : (nccpd_accrual_for_user uAcc 2025 "t1").vacation_left ≤ 560 := by
    rw [accrual_uAcc_once]
    norm_num
  have hent : 1 ≤ (nccpd_entitlement_days_for_year (pyStrip uAcc.seniority_date) 2025 : ℚ)
      * pyOrQ uAcc.hours_per_day_default 8 := by
    show 1 ≤ (nccpd_entitlement_days_for_year (pyStrip "2010-01-01") 2025 : ℚ) * pyOrQ 8 8
    rw [accrual_days_2010]
    norm_num [pyOrQ]
  exact ⟨hle, hent, (accrual_rerun_amended uAcc 2025 "t1" "t2").2.2.2 (Or.inl hle) hent⟩

theorem charListLt_iff (a b : List Char) : charListLt a b = true ↔ a < b := by
  induction a generalizing b with
  | nil =>
    cases b with
    | nil =>
      simp only [charListLt, Bool.false_eq_true, false_iff]
      exact fun hc => List.Lex.not_nil_right _ _ hc
    | cons bh bt =>
      simp only [charListLt, true_iff]
      exact List.Lex.nil
  | cons ah as1 ih =>
    cases b with
    | nil =>
      simp only [charListLt, Bool.false_eq_true, false_iff]
      exact fun hc => List.Lex.not_nil_right _ _ hc
    | cons bh bt =>
      simp only [charListLt, Bool.or_eq_true, Bool.and_eq_true, decide_eq_true_eq, beq_iff_eq]
      constructor
      · rintro (hlt | ⟨heq, hrec⟩)
        · exact List.Lex.rel hlt
        · subst heq
          exact List.Lex.cons ((ih bt).mp hrec)
      · intro h
        cases h with
        | rel h1 => exact Or.inl h1
        | cons h2 => exact Or.inr ⟨rfl, (ih bt).mpr h2⟩

theorem strLtb_iff (a b : String) : strLtb a b = true ↔ a.data < b.data :=
  charListLt_iff a.data b.data

theorem strLtb_not_both (a b : String) (h1 : ¬ strLtb a b = true)
    (h2 : ¬ strLtb b a = true) : a = b := by
  rw [strLtb_iff] at h1 h2
  have hd : a.data = b.data := le_antisymm (not_lt.mp h2) (not_lt.mp h1)
  exact congrArg String.mk hd

/-- The lexicographic key of an enriched row, as a nested `Lex` pair (Python
tuple comparison semantics). -/
def keyTup (r : Row) : Lex (List Char × Lex (List Char × Lex (ℚ × ℕ))) :=
  toLex (r.req.user.data, toLex (r.ty.data, toLex (r.req.hours, keyDt r)))

theorem rowLe_iff (a b : Row) : rowLe a b = true ↔ keyTup a ≤ keyTup b := by
  unfold rowLe keyTup
  rw [Prod.Lex.le_iff]
  by_cases h1 : strLtb a.req.user b.req.user = true
  · simp only [if_pos h1, true_iff]
    exact Or.inl ((strLtb_iff _ _).mp h1)
  · rw [if_neg h1]
    by_cases h2 : strLtb b.req.user a.req.user = true
    · simp only [if_pos h2, Bool.false_eq_true, false_iff]
      rintro (hlt | ⟨heq, _⟩)
      · exact absurd ((strLtb_iff _ _).mp h2) (lt_asymm hlt)
      · have hlt2 := (strLtb_iff _ _).mp h2
        rw [heq] at hlt2
        exact absurd hlt2 (lt_irrefl _)
    · have hu : a.req.user = b.req.user := strLtb_not_both _ _ h1 h2
      rw [if_neg h2]
      have husd : a.req.user.data = b.req.user.data := by rw [hu]
      have hiff1 : (a.req.user.data < b.req.user.data
            ∨ a.req.user.data = b.req.user.data
              ∧ toLex (a.ty.data, toLex (a.req.hours, keyDt a))
                ≤ toLex (b.ty.data, toLex (b.req.hours, keyDt b)))
          ↔ toLex (a.ty.data, toLex (a.req.hours, keyDt a))
              ≤ toLex (b.ty.data, toLex (b.req.hours, keyDt b)) := by
        constructor
        · rintro (hlt | ⟨_, hle⟩)
          · rw [husd] at hlt
            exact absurd hlt (lt_irrefl _)
          · exact hle
        · intro hle
          exact Or.inr ⟨husd, hle⟩
      rw [hiff1, Prod.Lex.le_iff]
      by_cases h3 : strLtb a.ty b.ty = true
      · simp only [if_pos h3, true_iff]
        exact Or.inl ((strLtb_iff _ _).mp h3)
      · rw [if_neg h3]
        by_cases h4 : strLtb b.ty a.ty = true
        · simp only [if_pos h4, Bool.false_eq_true, false_iff]
          rintro (hlt | ⟨heq, _⟩)
          · exact absurd ((strLtb_iff _ _).mp h4) (lt_asymm hlt)
          · have hlt4 := (strLtb_iff _ _).mp h4
            rw [heq] at hlt4
            exact absurd hlt4 (lt_irrefl _)
        · have hty : a.ty = b.ty := strLtb_not_both _ _ h3 h4
          have htyd : a.ty.data = b.ty.data := by rw [hty]
          rw [if_neg h4]
          have hiff2 : (a.ty.data < b.ty.data
                ∨ a.ty.data = b.ty.data
                  ∧ toLex (a.req.hours, keyDt a) ≤ toLex (b.req.hours, keyDt b))
              ↔ toLex (a.req.hours, keyDt a) ≤ toLex (b.req.hours, keyDt b) := by
            constructor
            · rintro (hlt | ⟨_, hle⟩)
              · rw [htyd] at hlt
                exact absurd hlt (lt_irrefl _)
              · exact hle
            · intro hle
              exact Or.inr ⟨htyd, hle⟩
          rw [hiff2, Prod.Lex.le_iff]
          by_cases h5 : a.req.hours < b.req.hours
          · simp only [if_pos h5, true_iff]
            exact Or.inl h5
          · rw [if_neg h5]
            by_cases h6 : b.req.hours < a.req.hours
            · simp only [if_pos h6, Bool.false_eq_true, false_iff]
              rintro (hlt | ⟨heq, _⟩)
              · exact absurd h6 (lt_asymm hlt)
              · rw [heq] at h6
                exact absurd h6 (lt_irrefl _)
            · have hh : a.req.hours = b.req.hours :=
                le_antisymm (not_lt.mp h6) (not_lt.mp h5)
              rw [if_neg h6]
              simp only [decide_eq_true_eq]
              constructor
              · intro hle
                exact Or.inr ⟨hh, hle⟩
              · rintro (hlt | ⟨_, hle⟩)
                · rw [hh] at hlt
                  exact absurd hlt (lt_irrefl _)
                · exact hle

theorem rowLe_trans (a b c : Row) (h1 : rowLe a b = true) (h2 : rowLe b c = true) :
    rowLe a c = true := by
  rw [rowLe_iff] at h1 h2 ⊢
  exact le_trans h1 h2

theorem rowLe_total (a b : Row) : (rowLe a b || rowLe b a) = true := by
  rcases le_total (keyTup a) (keyTup b) with h | h
  · simp [rowLe_iff, h]
  · simp [rowLe_iff, h]

theorem rowLe_dt_of_groupKey (a b : Row) (hle : rowLe a b = true)
    (hg : groupKey a = groupKey b) : keyDt a ≤ keyDt b := by
  rw [rowLe_iff] at hle
  unfold keyTup at hle
  have hu : a.req.user = b.req.user := congrArg (fun t => t.1) hg
  have hty : a.ty = b.ty := congrArg (fun t => t.2.1) hg
  have hh : a.req.hours = b.req.hours := congrArg (fun t => t.2.2) hg
  have hud : a.req.user.data = b.req.user.data := congrArg String.data hu
  have htyd : a.ty.data = b.ty.data := congrArg String.data hty
  rw [Prod.Lex.le_iff] at hle
  rcases hle with h | ⟨_, hle⟩
  · rw [hud] at h
    exact absurd h (lt_irrefl _)
  · rw [Prod.Lex.le_iff] at hle
    rcases hle with h | ⟨_, hle⟩
    · rw [htyd] at h
      exact absurd h (lt_irrefl _)
    · rw [Prod.Lex.le_iff] at hle
      rcases hle with h | ⟨_, hle⟩
      · rw [hh] at h
        exact absurd h (lt_irrefl _)
      · exact hle

/-- C9 (amended): in the sorted enriched list, an entry with an unparseable
date is keyed as the minimum date (`0001-01-01`, day number 1), so within a
(user, type, hours-per-day) group entries are ordered by that substituted
day number — unparseable dates therefore sort before (never after) any entry
whose date parses to a later day. -/
theorem aggregator_tiebreak_amended (pending : List PendingReq) :
    List.Pairwise (fun a b => groupKey a = groupKey b → keyDt a ≤ keyDt b)
      (sortRows pending) := by
  unfold sortRows
  have hs := @List.sorted_mergeSort Row rowLe rowLe_trans rowLe_total (enrich pending)
  exact hs.imp (fun h hg => rowLe_dt_of_groupKey _ _ h hg)

theorem aggregator_tiebreak_counterexample :
    ((sortRows [mkPend "w" "x" 8, mkPend "w" "2025-05-01" 8]).map
        (fun r => r.req.date) = ["x", "2025-05-01"])
    ∧ ((sortRows [mkPend "w" "x" 8, mkPend "w" "2025-05-01" 8]).map groupKey
        = [("w", "vacation", (8:ℚ)), ("w", "vacation", (8:ℚ))])
    ∧ dateNum "x" = none
    ∧ (dateNum "2025-05-01").isSome = true := by
  have hpair : List.Pairwise (fun a b => rowLe a b = true)
      (enrich [mkPend "w" "x" 8, mkPend "w" "2025-05-01" 8]) := by decide
  have hsort : sortRows [mkPend "w" "x" 8, mkPend "w" "2025-05-01" 8]
      = enrich [mkPend "w" "x" 8, mkPend "w" "2025-05-01" 8] := by
    unfold sortRows
    exact List.mergeSort_of_sorted hpair
  rw [hsort]
  refine ⟨by decide, by decide, by decide, by decide⟩

theorem chunkBy_flatten (l : List Row) : (chunkBy l).flatten = l := by
  induction l using chunkBy.induct with
  | case1 => simp [chunkBy]
  | case2 x xs ih =>
    rw [chunkBy]
    simp only [List.flatten_cons, ih, List.cons_append]
    rw [List.takeWhile_append_dropWhile]

theorem chunkBy_ne_nil (l : List Row) : ∀ c ∈ chunkBy l, c ≠ [] := by
  induction l using chunkBy.induct with
  | case1 => simp [chunkBy]
  | case2 x xs ih =>
    rw [chunkBy]
    intro c hc
    rcases List.mem_cons.mp hc with h | h
    · subst h
      simp
    · exact ih c h

theorem chunkBy_key (l : List Row) :
    ∀ c ∈ chunkBy l, ∀ hd, c.head? = some hd → ∀ x ∈ c, groupKey x = groupKey hd := by
  induction l using chunkBy.induct with
  | case1 => simp [chunkBy]
  | case2 x xs ih =>
    rw [chunkBy]
    intro c hc hd hhd y hy
    rcases List.mem_cons.mp hc with h | h
    · subst h
      simp only [List.head?_cons, Option.some_inj] at hhd
      subst hhd
      rcases List.mem_cons.mp hy with h2 | h2
      · rw [h2]
      · have := List.mem_takeWhile_imp h2
        simpa using this
    · exact ih c h hd hhd y hy

theorem rowSucc_keyDt_lt {a b : Row} (h : rowSucc a b) : keyDt a < keyDt b := by
  obtain ⟨n, ha, hb⟩ := h
  simp [keyDt, ha, hb]

theorem flushRun_flatten_perm (seq : List Row) : (flushRun seq).flatten.Perm seq := by
  unfold flushRun
  split_ifs with h
  · rw [List.isEmpty_iff.mp h]
    rfl
  · simpa using List.mergeSort_perm seq byDtLe

theorem flushRun_of_chain (seq : List Row) (hne : seq ≠ [])
    (hch : List.Chain' rowSucc seq) : flushRun seq = [seq] := by
  unfold flushRun
  rw [if_neg (by simpa [List.isEmpty_iff] using hne)]
  congr 1
  apply List.mergeSort_of_sorted
  have hlt : List.Pairwise (fun a b : Row => keyDt a < keyDt b) seq := by
    haveI : IsTrans Row (fun a b : Row => keyDt a < keyDt b) :=
      ⟨fun _ _ _ h1 h2 => Nat.lt_trans h1 h2⟩
    rw [← List.chain'_iff_pairwise]
    exact hch.imp (fun _ _ h => rowSucc_keyDt_lt h)
  exact hlt.imp (fun h => by simp [byDtLe]; omega)

theorem walk_flatten_perm (rows : List Row) :
    ∀ (seq : List Row) (b : ℕ), (∀ r ∈ rows, (r.dt).isSome = true) →
    ((walk seq (some b) rows).flatten).Perm (seq ++ rows) := by
  induction rows with
  | nil =>
    intro seq b _
    simpa [walk] using flushRun_flatten_perm seq
  | cons r rs ih =>
    intro seq b hall
    obtain ⟨a, ha⟩ : ∃ a, r.dt = some a :=
      Option.isSome_iff_exists.mp (hall r (by simp))
    simp only [walk]
    by_cases hnd : nextDay b r.dt = true
    · rw [if_pos hnd, ha]
      have hperm := ih (seq ++ [r]) a (fun x hx => hall x (by simp [hx]))
      calc ((walk (seq ++ [r]) (some a) rs).flatten).Perm ((seq ++ [r]) ++ rs) := hperm
        _ = seq ++ (r :: rs) := by simp
    · rw [if_neg hnd, ha]
      rw [List.flatten_append]
      have h1 := flushRun_flatten_perm seq
      have h2 := ih [r] a (fun x hx => hall x (by simp [hx]))
      calc ((flushRun seq).flatten ++ (walk [r] (some a) rs).flatten).Perm
            (seq ++ ([r] ++ rs)) := h1.append h2
        _ = seq ++ (r :: rs) := by simp

theorem walk_runs (rows : List Row) :
    ∀ (seq : List Row) (b : ℕ),
    (∀ r ∈ rows, (r.dt).isSome = true) →
    seq ≠ [] → List.Chain' rowSucc seq →
    (∃ x, seq.getLast? = some x ∧ x.dt = some b) →
    (∀ run ∈ walk seq (some b) rows, run ≠ [] ∧ List.Chain' rowSucc run)
    ∧ List.Chain' runBoundary (walk seq (some b) rows)
    ∧ ((walk seq (some b) rows).head?.bind List.head? = seq.head?) := by
  induction rows with
  | nil =>
    intro seq b _ hne hch _
    have hflush : walk seq (some b) [] = [seq] := flushRun_of_chain seq hne hch
    rw [hflush]
    refine ⟨?_, ?_, ?_⟩
    · intro run hrun
      rw [List.mem_singleton.mp hrun]
      exact ⟨hne, hch⟩
    · simp
    · cases seq with
      | nil => exact absurd rfl hne
      | cons s ss => simp
  | cons r rs ih =>
    intro seq b hall hne hch hlast
    obtain ⟨a, ha⟩ : ∃ a, r.dt = some a :=
      Option.isSome_iff_exists.mp (hall r (by simp))
    simp only [walk]
    by_cases hnd : nextDay b r.dt = true
    · rw [if_pos hnd, ha]
      have ha2 : a = b + 1 := by
        rw [ha] at hnd
        simpa [nextDay] using hnd
      obtain ⟨x, hx, hxd⟩ := hlast
      have hch2 : List.Chain' rowSucc (seq ++ [r]) := by
        apply hch.append (List.chain'_singleton r)
        intro y hy z hz
        simp only [Option.mem_def] at hy hz
        rw [hx] at hy
        have hyx : x = y := by injection hy
        subst hyx
        simp only [List.head?_cons, Option.some_inj] at hz
        subst hz
        exact ⟨b, hxd, by rw [ha, ha2]⟩
      have hres := ih (seq ++ [r]) a (fun z hz => hall z (by simp [hz]))
        (by simp) hch2 ⟨r, by simp, ha⟩
      refine ⟨hres.1, hres.2.1, ?_⟩
      rw [hres.2.2]
      cases seq with
      | nil => exact absurd rfl hne
      | cons s ss => simp
    · rw [if_neg hnd, ha]
      have hnotsucc : ¬ (a = b + 1) := by
        rw [ha] at hnd
        simpa [nextDay] using hnd
      have hres := ih [r] a (fun z hz => hall z (by simp [hz]))
        (by simp) (List.chain'_singleton r) ⟨r, by simp, ha⟩
      obtain ⟨ihruns, ihchain, ihhead⟩ := hres
      rw [flushRun_of_chain seq hne hch]
      have happ : ([seq] ++ walk [r] (some a) rs) = seq :: walk [r] (some a) rs := by simp
      rw [happ]
      refine ⟨?_, ?_, ?_⟩
      · intro run hrun
        rcases List.mem_cons.mp hrun with h | h
        · rw [h]
          exact ⟨hne, hch⟩
        · exact ihruns run h
      · rw [List.chain'_cons']
        refine ⟨?_, ihchain⟩
        intro y hy
        intro x z hxl hzh
        obtain ⟨x0, hx0, hx0d⟩ := hlast
        rw [hx0] at hxl
        have hzr : z = r := by
          rw [Option.mem_def] at hy
          rw [hy] at ihhead
          simp only [Option.some_bind] at ihhead
          rw [hzh] at ihhead
          simp only [List.head?_cons, Option.some_inj] at ihhead
          exact ihhead
        subst hzr
        have hxx : x0 = x := by injection hxl
        subst hxx
        rintro ⟨n, hn1, hn2⟩
        rw [hx0d] at hn1
        have hnb : b = n := by injection hn1
        subst hnb
        rw [ha] at hn2
        have hab : a = b + 1 := by injection hn2
        exact hnotsucc hab
      · simp

theorem runsOf_flatten_perm (c : List Row) (hall : ∀ r ∈ c, (r.dt).isSome = true) :
    ((runsOf c).flatten).Perm c := by
  cases c with
  | nil => simp [runsOf, walk, flushRun]
  | cons r rs =>
    obtain ⟨a, ha⟩ : ∃ a, r.dt = some a :=
      Option.isSome_iff_exists.mp (hall r (by simp))
    unfold runsOf
    rw [walk, ha]
    exact walk_flatten_perm rs [r] a (fun z hz => hall z (by simp [hz]))

theorem runsOf_props (c : List Row) (hall : ∀ r ∈ c, (r.dt).isSome = true) :
    (∀ run ∈ runsOf c, run ≠ [] ∧ List.Chain' rowSucc run)
    ∧ List.Chain' runBoundary (runsOf c) := by
  cases c with
  | nil =>
    constructor
    · intro run hrun
      simp [runsOf, walk, flushRun] at hrun
    · simp [runsOf, walk, flushRun]
  | cons r rs =>
    obtain ⟨a, ha⟩ : ∃ a, r.dt = some a :=
      Option.isSome_iff_exists.mp (hall r (by simp))
    unfold runsOf
    rw [walk, ha]
    have hres := walk_runs rs [r] a (fun z hz => hall z (by simp [hz]))
      (by simp) (List.chain'_singleton r) ⟨r, by simp, ha⟩
    exact ⟨hres.1, hres.2.1⟩

theorem enrich_mem (pending : List PendingReq) :
    ∀ row ∈ enrich pending, row.dt = dateNum row.req.date
      ∧ row.req ∈ pending ∧ isKept row.req = true := by
  intro row hrow
  simp only [enrich, List.mem_map, List.mem_filter] at hrow
  obtain ⟨r, ⟨hr1, hr2⟩, hr3⟩ := hrow
  subst hr3
  exact ⟨rfl, hr1, hr2⟩

theorem enrich_parseable (pending : List PendingReq) (hp : allParseable pending) :
    ∀ row ∈ enrich pending, (row.dt).isSome = true := by
  intro row hrow
  obtain ⟨hdt, hmem, hkept⟩ := enrich_mem pending row hrow
  rw [hdt]
  exact hp row.req hmem hkept

theorem sortRows_parseable (pending : List PendingReq) (hp : allParseable pending) :
    ∀ row ∈ sortRows pending, (row.dt).isSome = true := by
  intro row hrow
  exact enrich_parseable pending hp row (List.mem_mergeSort.mp hrow)

theorem chunk_mem_parseable (pending : List PendingReq) (hp : allParseable pending)
    (c : List Row) (hc : c ∈ chunkBy (sortRows pending)) :
    ∀ r ∈ c, (r.dt).isSome = true := by
  intro r hr
  apply sortRows_parseable pending hp
  rw [← chunkBy_flatten (sortRows pending)]
  exact List.mem_flatten.mpr ⟨c, hc, hr⟩

theorem chain_daySucc_of_rowSucc (run : List Row)
    (hwf : ∀ r ∈ run, r.dt = dateNum r.req.date)
    (hch : List.Chain' rowSucc run) : List.Chain' daySucc (run.map dayOf) := by
  induction run with
  | nil => simp
  | cons x rest ih =>
    cases rest with
    | nil => simp [List.chain'_singleton]
    | cons y rest2 =>
      rw [List.map_cons, List.map_cons, List.chain'_cons]
      rw [List.chain'_cons] at hch
      constructor
      · obtain ⟨n, hx, hy⟩ := hch.1
        refine ⟨n, ?_, ?_⟩
        · show dateNum x.req.date = some n
          rw [← hwf x (by simp)]
          exact hx
        · show dateNum y.req.date = some (n + 1)
          rw [← hwf y (by simp)]
          exact hy
      · have := ih (fun r hr => hwf r (by simp [List.mem_cons.mp hr])) hch.2
        rw [List.map_cons] at this
        exact this

theorem flattenGroups_append (l1 l2 : List RangeGroup) :
    flattenGroups (l1 ++ l2) = flattenGroups l1 ++ flattenGroups l2 := by
  simp [flattenGroups]

theorem chunk_flatten_perm (pending : List PendingReq) (hp : allParseable pending)
    (c : List Row) (hc : c ∈ chunkBy (sortRows pending)) :
    (flattenGroups (chunkGroups c)).Perm
      (c.map (fun row => projEntry row.req)) := by
  have hall := chunk_mem_parseable pending hp c hc
  cases c with
  | nil => simp [chunkGroups, flattenGroups]
  | cons h t =>
    have huser : ∀ x ∈ h :: t, x.req.user = h.req.user := by
      intro x hx
      have hk := chunkBy_key (sortRows pending) (h :: t) hc h (by simp) x hx
      exact congrArg (fun k => k.1) hk
    show (flattenGroups ((runsOf (h :: t)).map (mkGroup h.req.user h.ty h.req.hours))).Perm _
    unfold flattenGroups
    rw [List.map_map]
    have hcomp : ((fun g : RangeGroup =>
          g.days.map (fun d => (g.user, d.date, d.hours, d.note, d.status)))
            ∘ (mkGroup h.req.user h.ty h.req.hours))
        = fun run : List Row => run.map (fun row =>
            (h.req.user, row.req.date, row.req.hours, row.req.note, row.req.status)) := by
      funext run
      show ((mkGroup h.req.user h.ty h.req.hours run).days.map
        (fun d => ((mkGroup h.req.user h.ty h.req.hours run).user, d.date, d.hours, d.note, d.status))) = _
      rw [show (mkGroup h.req.user h.ty h.req.hours run).days = run.map dayOf from rfl]
      rw [List.map_map]
      rfl
    rw [hcomp]
    have hperm0 := runsOf_flatten_perm (h :: t) hall
    have hmemrun : ∀ run ∈ runsOf (h :: t), ∀ row ∈ run, row ∈ (h :: t) := by
      intro run hrun row hrow
      exact hperm0.mem_iff.mp (List.mem_flatten.mpr ⟨run, hrun, hrow⟩)
    have hmapeq : (runsOf (h :: t)).map (fun run : List Row => run.map (fun row =>
          (h.req.user, row.req.date, row.req.hours, row.req.note, row.req.status)))
        = (runsOf (h :: t)).map (fun run : List Row => run.map (fun row =>
            projEntry row.req)) := by
      apply List.map_congr_left
      intro run hrun
      apply List.map_congr_left
      intro row hrow
      have hu := huser row (hmemrun run hrun row hrow)
      unfold projEntry
      rw [hu]
    rw [hmapeq]
    rw [← List.map_flatten]
    exact hperm0.map _

theorem perm_chunks (cs : List (List Row))
    (hall : ∀ c ∈ cs, (flattenGroups (chunkGroups c)).Perm
      (c.map (fun row => projEntry row.req))) :
    (flattenGroups ((cs.map chunkGroups).flatten)).Perm
      ((cs.flatten).map (fun row => projEntry row.req)) := by
  induction cs with
  | nil => simp [flattenGroups]
  | cons c cs2 ih =>
    rw [List.map_cons, List.flatten_cons, flattenGroups_append, List.flatten_cons,
      List.map_append]
    exact (hall c (by simp)).append (ih (fun c2 hc2 => hall c2 (by simp [hc2])))

/-- C6 (amended): when every pending vacation entry's date parses, the
aggregator is a faithful round trip — flattening all emitted groups' per-day
sub-entries is a permutation of the pending vacation entries (each appears
in exactly one group, none lost, none duplicated); each emitted group's days
form a run of strictly consecutive calendar dates; and adjacent runs within
one (user, type, hours-per-day) bucket are separated by a non-one-day gap,
so two dates share a run exactly when every intermediate gap is one day.
With an unparseable date the walk can drop entries, so the restriction is
necessary. -/
theorem aggregator_roundtrip_amended (pending : List PendingReq)
    (hp : allParseable pending) :
    (flattenGroups (admin_requests_groups pending)).Perm
        ((pending.filter isKept).map projEntry)
    ∧ (∀ g ∈ admin_requests_groups pending, g.days ≠ [] ∧ List.Chain' daySucc g.days)
    ∧ (∀ c ∈ chunkBy (sortRows pending), List.Chain' runBoundary (runsOf c)) := by
  refine ⟨?_, ?_, ?_⟩
  · have h1 := perm_chunks (chunkBy (sortRows pending))
      (fun c hc => chunk_flatten_perm pending hp c hc)
    rw [chunkBy_flatten] at h1
    have h2 : (sortRows pending).Perm (enrich pending) := List.mergeSort_perm _ _
    have h3 := h2.map (fun row => projEntry row.req)
    have h4 : (enrich pending).map (fun row => projEntry row.req)
        = (pending.filter isKept).map projEntry := by
      unfold enrich
      rw [List.map_map]
      rfl
    rw [h4] at h3
    exact h1.trans h3
  · intro g hg
    unfold admin_requests_groups at hg
    obtain ⟨gs, hgs, hggs⟩ := List.mem_flatten.mp hg
    obtain ⟨c, hc, hcgs⟩ := List.mem_map.mp hgs
    subst hcgs
    have hall := chunk_mem_parseable pending hp c hc
    cases c with
    | nil => simp [chunkGroups] at hggs
    | cons h t =>
      obtain ⟨run, hrun, hgr⟩ := List.mem_map.mp hggs
      subst hgr
      obtain ⟨hprops, _⟩ := runsOf_props (h :: t) hall
      obtain ⟨hrne, hrch⟩ := hprops run hrun
      have hwf : ∀ r ∈ run, r.dt = dateNum r.req.date := by
        intro r hr
        have hrc : r ∈ (h :: t) := by
          have hperm0 := runsOf_flatten_perm (h :: t) hall
          exact hperm0.mem_iff.mp (List.mem_flatten.mpr ⟨run, hrun, hr⟩)
        have hrs : r ∈ sortRows pending := by
          rw [← chunkBy_flatten (sortRows pending)]
          exact List.mem_flatten.mpr ⟨h :: t, hc, hrc⟩
        exact (enrich_mem pending r (List.mem_mergeSort.mp hrs)).1
      constructor
      · show run.map dayOf ≠ []
        simpa using hrne
      · show List.Chain' daySucc (run.map dayOf)
        exact chain_daySucc_of_rowSucc run hwf hrch
  · intro c hc
    exact (runsOf_props c (chunk_mem_parseable pending hp c hc)).2

theorem aggregator_roundtrip_counterexample :
    flattenGroups (admin_requests_groups
        [mkPend "w" "bad" 8, mkPend "w" "2025-01-02" 8])
      = [("w", "2025-01-02", (8:ℚ), "", "pending")]
    ∧ ([mkPend "w" "bad" 8, mkPend "w" "2025-01-02" 8].filter isKept).map projEntry
      = [("w", "bad", (8:ℚ), "", "pending"), ("w", "2025-01-02", (8:ℚ), "", "pending")]
    ∧ ¬ (flattenGroups (admin_requests_groups
        [mkPend "w" "bad" 8, mkPend "w" "2025-01-02" 8])).Perm
          (([mkPend "w" "bad" 8, mkPend "w" "2025-01-02" 8].filter isKept).map projEntry) := by
  have henrich : enrich [mkPend "w" "bad" 8, mkPend "w" "2025-01-02" 8]
      = [⟨mkPend "w" "bad" 8, "vacation", none⟩,
         ⟨mkPend "w" "2025-01-02" 8, "vacation", dateNum "2025-01-02"⟩] := by decide
  have hsort : sortRows [mkPend "w" "bad" 8, mkPend "w" "2025-01-02" 8]
      = [⟨mkPend "w" "bad" 8, "vacation", none⟩,
         ⟨mkPend "w" "2025-01-02" 8, "vacation", dateNum "2025-01-02"⟩] := by
    unfold sortRows
    rw [henrich]
    exact List.mergeSort_of_sorted (by decide)
  have hruns : runsOf [(⟨mkPend "w" "bad" 8, "vacation", none⟩ : Row),
      ⟨mkPend "w" "2025-01-02" 8, "vacation", dateNum "2025-01-02"⟩]
      = [[⟨mkPend "w" "2025-01-02" 8, "vacation", dateNum "2025-01-02"⟩]] := by
    simp [runsOf, walk, flushRun]
  have hchunk : chunkBy [(⟨mkPend "w" "bad" 8, "vacation", none⟩ : Row),
      ⟨mkPend "w" "2025-01-02" 8, "vacation", dateNum "2025-01-02"⟩]
      = [[⟨mkPend "w" "bad" 8, "vacation", none⟩,
          ⟨mkPend "w" "2025-01-02" 8, "vacation", dateNum "2025-01-02"⟩]] := by
    rw [chunkBy]
    rw [show List.takeWhile (fun y => decide (groupKey y
        = groupKey (⟨mkPend "w" "bad" 8, "vacation", none⟩ : Row)))
        [(⟨mkPend "w" "2025-01-02" 8, "vacation", dateNum "2025-01-02"⟩ : Row)]
      = [⟨mkPend "w" "2025-01-02" 8, "vacation", dateNum "2025-01-02"⟩] from by decide]
    rw [show List.dropWhile (fun y => decide (groupKey y
        = groupKey (⟨mkPend "w" "bad" 8, "vacation", none⟩ : Row)))
        [(⟨mkPend "w" "2025-01-02" 8, "vacation", dateNum "2025-01-02"⟩ : Row)]
      = [] from by decide]
    rw [chunkBy]
  have hgroups : admin_requests_groups [mkPend "w" "bad" 8, mkPend "w" "2025-01-02" 8]
      = chunkGroups [⟨mkPend "w" "bad" 8, "vacation", none⟩,
          ⟨mkPend "w" "2025-01-02" 8, "vacation", dateNum "2025-01-02"⟩] := by
    unfold admin_requests_groups
    rw [hsort, hchunk]
    simp
  have hflat : flattenGroups (admin_requests_groups
      [mkPend "w" "bad" 8, mkPend "w" "2025-01-02" 8])
      = [("w", "2025-01-02", (8:ℚ), "", "pending")] := by
    rw [hgroups]
    unfold chunkGroups
    rw [hruns]
    simp [flattenGroups, mkGroup, dayOf, mkPend]
  refine ⟨hflat, by decide, ?_⟩
  intro hperm
  rw [hflat] at hperm
  have hlen := hperm.length_eq
  rw [show (([mkPend "w" "bad" 8, mkPend "w" "2025-01-02" 8].filter isKept).map projEntry).length
    = 2 from by decide] at hlen
  simp at hlen

theorem aggregator_roundtrip_amended_witness :
    allParseable [mkPend "w" "2025-01-01" 8, mkPend "w" "2025-01-02" 8,
        mkPend "w" "2025-01-05" 8]
    ∧ (flattenGroups (admin_requests_groups [mkPend "w" "2025-01-01" 8,
        mkPend "w" "2025-01-02" 8, mkPend "w" "2025-01-05" 8])).Perm
        (([mkPend "w" "2025-01-01" 8, mkPend "w" "2025-01-02" 8,
          mkPend "w" "2025-01-05" 8].filter isKept).map projEntry) := by
  have hp : allParseable [mkPend "w" "2025-01-01" 8, mkPend "w" "2025-01-02" 8,
      mkPend "w" "2025-01-05" 8] := by
    unfold allParseable
    decide
  exact ⟨hp, (aggregator_roundtrip_amended _ hp).1⟩
